import Mathlib

/-!
# Verification of the Multi-SFTP-Sync concurrency/security core

Shallow embedding, in Lean 4, of the components of the Multi-SFTP-Sync
repository that the verified claims are about:

* `src/security/pathGuard.js` — pure path validators (`normalizeRemotePath`,
  `assertRemotePathSafe`, `isCriticalRemotePath`), built on Node's
  `path.posix` primitives, which are embedded first;
* `HostTrustStore` — host-key trust engine (`verifyFingerprint`,
  `trustFingerprint`) over an in-memory entries map mirrored to a persisted
  file;
* `CredentialStore` — secret resolution and plaintext migration
  (`resolve`, `migrateFromPlaintext`, `migrateAll`) over a secret store;
* `TransferQueue` — bounded-concurrency FIFO scheduler (`enqueue`, `_drain`,
  cancellation, completion), embedded as a state machine whose steps are the
  atomic blocks of the single-threaded event loop;
* `ConnectionManager.getConnection` — per-key connection pooling and connect
  deduplication, embedded as a state machine over promise/caller states.

Definitions are translated from the JavaScript source; each is annotated
with the function it embeds.
-/

namespace MultiSftpSync

/-! ## Node `path.posix` primitives

`pathGuard.js` uses `path.posix.normalize`, `path.posix.relative` and
`path.posix.isAbsolute`.  Node's `normalizeString(path, allowAboveRoot)`
processes the `/`-separated segments of a path left to right: empty segments
and `.` are dropped; `..` pops the previous segment unless there is none (in
which case it is kept only when `allowAboveRoot`) or the previous segment is
itself a kept `..`.  We keep the accumulator reversed (head = most recent
segment).

Strings are processed as their character lists (`String.data`) so that every
definition is structurally recursive and kernel-evaluable; a path segment is
a `List Char`. -/

/-- Split a character list at `/` (the semantics of `"s".split("/")` /
`String.splitOn "/"`): `splitSlashAux cs cur` with `cur` the reversed
current segment. -/
def splitSlashAux : List Char → List Char → List (List Char)
  | [], cur => [cur.reverse]
  | c :: cs, cur =>
    if c = '/' then cur.reverse :: splitSlashAux cs []
    else splitSlashAux cs (c :: cur)

/-- All `/`-separated segments of a character list. -/
def splitSlash (l : List Char) : List (List Char) := splitSlashAux l []

/-- Join segments with `/`. -/
def joinSlash : List (List Char) → List Char
  | [] => []
  | [s] => s
  | s :: rest => s ++ '/' :: joinSlash rest

/-- Does the character list start with `/`? -/
def headIsSlash : List Char → Bool
  | '/' :: _ => true
  | _ => false

/-- Does the character list end with `/`? -/
def lastIsSlash (l : List Char) : Bool :=
  match l.getLast? with
  | some '/' => true
  | _ => false

/-- One step of Node's `normalizeString` segment loop (accumulator reversed). -/
def normStep (allowAboveRoot : Bool) (acc : List (List Char)) (seg : List Char) :
    List (List Char) :=
  if seg = [] || seg = ['.'] then acc
  else if seg = ['.', '.'] then
    match acc with
    | [] => if allowAboveRoot then [['.', '.']] else []
    | top :: rest => if top = ['.', '.'] then ['.', '.'] :: top :: rest else rest
  else seg :: acc

/-- Node `normalizeString(path, allowAboveRoot)` on the list of segments:
empty and `.` segments are dropped; `..` pops the previous segment unless
there is none (kept only when `allowAboveRoot`) or it is itself a kept
`..`. -/
def normSegs (allowAboveRoot : Bool) (segs : List (List Char)) : List (List Char) :=
  (segs.foldl (normStep allowAboveRoot) []).reverse

/-- Node `path.posix.normalize` on the character list. -/
def posixNormalizeL (l : List Char) : List Char :=
  if l = [] then ['.']
  else
    let isAbs := headIsSlash l
    let trailing := lastIsSlash l
    let body := joinSlash (normSegs (!isAbs) (splitSlash l))
    if body = [] then
      if isAbs then ['/'] else if trailing then ['.', '/'] else ['.']
    else
      let body := if trailing then body ++ ['/'] else body
      if isAbs then '/' :: body else body

/-- Node `path.posix.normalize`. -/
def posixNormalize (p : String) : String := ⟨posixNormalizeL p.data⟩

/-- Node `path.posix.isAbsolute`. -/
def posixIsAbsolute (p : String) : Bool := headIsSlash p.data

/-- Canonical segment list of an absolute path, as produced by
`path.posix.resolve` on an already-absolute argument (no `..`/`.`/empty
segments remain, trailing slash dropped). -/
def resolveSegsAbs (p : String) : List (List Char) :=
  normSegs false (splitSlash p.data)

/-- Drop the longest common prefix of two segment lists. -/
def dropCommonPrefix : List (List Char) → List (List Char) →
    List (List Char) × List (List Char)
  | a :: as, b :: bs =>
    if a = b then dropCommonPrefix as bs else (a :: as, b :: bs)
  | as, bs => (as, bs)

/-- Node `path.posix.relative(from, to)` for absolute `from`/`to` (the only
way `pathGuard.js` calls it): resolve both, drop the common segment prefix,
then emit one `..` per remaining `from` segment followed by the remaining
`to` segments. -/
def posixRelative (fromP toP : String) : String :=
  let f := resolveSegsAbs fromP
  let t := resolveSegsAbs toP
  let p := dropCommonPrefix f t
  ⟨joinSlash (p.1.map (fun _ => ['.', '.']) ++ p.2)⟩

/-! ## `src/security/pathGuard.js` -/

/-- JS truthiness default for strings: `value || dflt`. -/
def jsOr (value dflt : String) : String := if value = "" then dflt else value

/-- `normalizeRemotePath` from `pathGuard.js`: posix-normalize, then force a
leading `/` and re-normalize if the result was relative. -/
def normalizeRemotePath (inputPath : String) : String :=
  let normalized := posixNormalize inputPath
  if posixIsAbsolute normalized then normalized
  else posixNormalize ("/" ++ normalized)

/-- An error thrown by a path guard (`error.code` and `error.message`). -/
structure GuardError where
  code : String
  message : String
deriving DecidableEq, Repr

/-- `assertRemotePathSafe(remoteBase, remotePath, options)` from
`pathGuard.js`.  `enabled` is `options.enabled !== false` (default `true`);
throwing is modelled by `Except.error`. -/
def assertRemotePathSafe (remoteBase remotePath : String)
    (enabled : Bool := true) : Except GuardError String :=
  if !enabled then .ok (normalizeRemotePath remotePath)
  else
    let normalizedBase := normalizeRemotePath (jsOr remoteBase "/")
    let normalizedTarget := normalizeRemotePath (jsOr remotePath "/")
    let relative := posixRelative normalizedBase normalizedTarget
    if List.isPrefixOf ['.', '.'] relative.data || posixIsAbsolute relative then
      .error { code := "PATH_GUARD_REMOTE_TRAVERSAL"
               message := "Remote path traversal blocked: " ++ normalizedTarget
                 ++ " is outside " ++ normalizedBase }
    else
      .ok normalizedTarget

/-- `isCriticalRemotePath(remotePath, criticalPaths)` from `pathGuard.js`. -/
def isCriticalRemotePath (remotePath : String) (criticalPaths : List String) : Bool :=
  let target := normalizeRemotePath (jsOr remotePath "/")
  criticalPaths.any (fun item => normalizeRemotePath item = target)

/-- The containment test of `assertRemotePathSafe` (lines 36–40 of
`pathGuard.js`): the posix-relative path from the normalized base to the
normalized candidate starts with `..` or is absolute. -/
def remoteOutsideBase (remoteBase remotePath : String) : Bool :=
  let normalizedBase := normalizeRemotePath (jsOr remoteBase "/")
  let normalizedTarget := normalizeRemotePath (jsOr remotePath "/")
  let relative := posixRelative normalizedBase normalizedTarget
  List.isPrefixOf ['.', '.'] relative.data || posixIsAbsolute relative

/-! ## Delete safety (`extension.js`, `checkDeleteSafety` / `deleteFromServer`) -/

/-- The `safety` configuration consumed by `checkDeleteSafety`
(`getSafetyConfig()`); absent fields are `none` / `[]`. -/
structure SafetyConfig where
  blockCriticalDeletes : Option Bool := none
  criticalRemotePaths : List String := []
deriving DecidableEq, Repr

/-- Result of `checkDeleteSafety`. -/
inductive DeleteSafety
  | blocked (reason : String)
  | ok (normalized : String)
deriving DecidableEq, Repr

/-- `checkDeleteSafety(remotePath)` from the extension entry point: blocks
`/` unconditionally, then blocks configured critical paths unless
`blockCriticalDeletes === false`. -/
def checkDeleteSafety (safety : SafetyConfig) (remotePath : String) : DeleteSafety :=
  let normalized := normalizeRemotePath remotePath
  if normalized = "/" then .blocked "Root path deletion is blocked."
  else if safety.blockCriticalDeletes ≠ some false &&
      isCriticalRemotePath normalized safety.criticalRemotePaths then
    .blocked ("Critical remote path deletion is blocked: " ++ normalized)
  else .ok normalized

/-- What `deleteFromServer` decides before any queue or connection work:
`refuse` models the early `return {success:false, blocked:true, reason}`
taken when `checkDeleteSafety` blocks; `enqueueDelete` models the
`transferQueue.enqueue` of the delete task with the guarded path. -/
inductive DeleteDecision
  | refuse (reason : String)
  | enqueueDelete (guardedRemotePath : String)
deriving DecidableEq, Repr

/-- The guard prefix of `deleteFromServer(relativePath, config, remotePath)`:
it consults `checkDeleteSafety` first and refuses before enqueueing when
blocked, otherwise enqueues with the normalized path. -/
def deleteFromServerDecision (safety : SafetyConfig) (remotePath : String) :
    DeleteDecision :=
  match checkDeleteSafety safety remotePath with
  | .blocked reason => .refuse reason
  | .ok normalized => .enqueueDelete normalized

/-- A safety configuration with critical-delete blocking disabled and no
configured critical paths (used as a concrete witness input). -/
def laxSafetyConfig : SafetyConfig :=
  { blockCriticalDeletes := some false, criticalRemotePaths := [] }

/-! ## Shared configuration record

The per-server configuration consumed by `HostTrustStore`,
`CredentialStore` and `ConnectionManager`; optional fields absent in the
JSON config are `none`. -/

structure SftpConfig where
  host : String
  port : Option Nat := none
  username : String := ""
  password : Option String := none
  passphrase : Option String := none
deriving DecidableEq, Repr

/-- JS `config.port || 22`: `undefined` and `0` are falsy. -/
def jsPortOr22 : Option Nat → Nat
  | none => 22
  | some 0 => 22
  | some p => p

/-! ## `HostTrustStore` (trust engine)

The store state after `_ensureLoaded`: the in-memory `state.entries` object
(an insertion-ordered association list, as a JS object is) together with the
contents of the persisted `host-trust-store.json` file, which `_persist`
overwrites with the in-memory entries.  `trustedAt` timestamps
(`new Date().toISOString()`) are passed in as the `now` argument. -/

structure TrustEntry where
  host : String
  port : Nat
  fingerprint : String
  source : String
  trustedAt : String
deriving DecidableEq, Repr

structure TrustState where
  entries : List (String × TrustEntry)
  persisted : List (String × TrustEntry)
deriving DecidableEq, Repr

/-- `_hostKey(config)`: `` `${config.host}:${config.port || 22}` ``. -/
def hostKey (config : SftpConfig) : String :=
  config.host ++ ":" ++ toString (jsPortOr22 config.port)

/-- A JS object / Map with string keys, as an insertion-ordered association
list (keys unique by construction through `jsSet`). -/
abbrev JsObj (β : Type) := List (String × β)

/-- JS object property read `obj[key]` (first occurrence is the binding). -/
def jsGet {β : Type} : JsObj β → String → Option β
  | [], _ => none
  | p :: rest, k => if p.1 = k then some p.2 else jsGet rest k

/-- JS object property write `obj[key] = v`: replaces an existing key in
place, otherwise appends (JS objects preserve insertion order). -/
def jsSet {β : Type} (obj : JsObj β) (k : String) (v : β) : JsObj β :=
  if obj.any (fun p => p.1 = k) then
    obj.map (fun p => if p.1 = k then (k, v) else p)
  else obj ++ [(k, v)]

/-- The object returned by `verifyFingerprint`; fields not set on a given
branch are `none` / absent. -/
structure VerifyResult where
  allowed : Bool
  policy : String
  reason : String
  message : Option String := none
  expected : Option String := none
  actual : Option String := none
deriving DecidableEq, Repr

/-- `trustFingerprint(config, fingerprint, source)`: writes the entry and
synchronously persists (`_persist` mirrors `entries` to the file). -/
def trustFingerprint (st : TrustState) (config : SftpConfig)
    (fingerprint source now : String) : TrustState :=
  let entries := jsSet st.entries (hostKey config)
    { host := config.host, port := jsPortOr22 config.port,
      fingerprint := fingerprint, source := source, trustedAt := now }
  { entries := entries, persisted := entries }

/-- `verifyFingerprint(config, fingerprint, policy)` from `HostTrustStore`,
returning the result object together with the (possibly updated) store. -/
def verifyFingerprint (st : TrustState) (config : SftpConfig)
    (fingerprint policy now : String) : VerifyResult × TrustState :=
  if policy = "off" then
    ({ allowed := true, policy := policy, reason := "policy_off" }, st)
  else
    let key := hostKey config
    match jsGet st.entries key with
    | none =>
      if policy = "strict" then
        ({ allowed := false, policy := policy, reason := "unknown_host",
           message := some ("No trusted host key exists for " ++ key ++ ".") },
         st)
      else
        ({ allowed := true, policy := policy, reason := "trusted_now" },
         trustFingerprint st config fingerprint "tofu" now)
    | some current =>
      if current.fingerprint = fingerprint then
        ({ allowed := true, policy := policy, reason := "match" }, st)
      else
        ({ allowed := false, policy := policy, reason := "mismatch",
           expected := some current.fingerprint, actual := some fingerprint,
           message := some ("Host key mismatch for " ++ key ++ ".") }, st)

/-! ## `CredentialStore`

Secret storage (`context.secrets`) is a key-value store exposed through
`get(key)` / `store(key, value)`, modelled as a `JsObj String` threaded
through the operations.  The embedding models the store present
(`this.context` truthy), as in the claims. -/

/-- The contents of secret storage. -/
abbrev SecretStore := JsObj String

/-- `typeof v === 'string' && v.length > 0`. -/
def isNonEmptyStr : Option String → Bool
  | some s => !(s == "")
  | none => false

/-- `_secretKey(workspaceId, config, field)`:
`` `${workspace}:${host}:${port}:${username}:${field}` `` with falsy fields
defaulted. -/
def secretKey (workspaceId : String) (config : SftpConfig) (field : String) :
    String :=
  jsOr workspaceId "unknown-workspace" ++ ":" ++ jsOr config.host "unknown-host"
    ++ ":" ++ toString (jsPortOr22 config.port) ++ ":"
    ++ jsOr config.username "unknown-user" ++ ":" ++ field

/-- One iteration of the field loop in `CredentialStore.resolve`: returns
the resolved value placed in the config copy for this field, whether the
field was recorded as migrated, and the updated secret store. -/
def resolveField (autoMigrate overwrite : Bool) (key : String)
    (plain : Option String) (store : SecretStore) :
    Option String × Bool × SecretStore :=
  let secretValue := jsGet store key
  if isNonEmptyStr secretValue && !overwrite then
    (secretValue, false, store)
  else if isNonEmptyStr plain && autoMigrate then
    (plain, true, jsSet store key (plain.getD ""))
  else if isNonEmptyStr secretValue && overwrite then
    (secretValue, false, store)
  else
    (plain, false, store)

/-- What `CredentialStore.resolve` returns and its effects: the resolved
secret fields of the config copy, `migratedFields`, the secret store after
any `secrets.store` calls, and the `didNotifyMigration` flag (the
`onAutoMigrated` notification hook itself is external UI). -/
structure ResolveResult where
  password : Option String
  passphrase : Option String
  migratedFields : List String
  store : SecretStore
  didNotify : Bool
deriving DecidableEq, Repr

/-- `CredentialStore.resolve(config, workspaceId, options)` with
`autoMigrate = options.autoMigrate !== false` and
`overwrite = options.overwrite === true` already evaluated; the field loop
runs over `['password', 'passphrase']` in order. -/
def credResolve (config : SftpConfig) (workspaceId : String)
    (autoMigrate overwrite : Bool) (store : SecretStore) (didNotify : Bool) :
    ResolveResult :=
  let r1 := resolveField autoMigrate overwrite
    (secretKey workspaceId config "password") config.password store
  let r2 := resolveField autoMigrate overwrite
    (secretKey workspaceId config "passphrase") config.passphrase r1.2.2
  let migrated := (if r1.2.1 then ["password"] else [])
    ++ (if r2.2.1 then ["passphrase"] else [])
  { password := r1.1, passphrase := r2.1, migratedFields := migrated,
    store := r2.2.2, didNotify := didNotify || !migrated.isEmpty }

/-- One field of `migrateFromPlaintext`: skip when the plaintext value is
absent/empty; when `overwrite` is off, also skip when secret storage already
holds a non-empty value; otherwise write and count. -/
def migrateField (overwrite : Bool) (key : String) (plain : Option String)
    (store : SecretStore) : Bool × SecretStore :=
  if !(isNonEmptyStr plain) then (false, store)
  else if !overwrite && isNonEmptyStr (jsGet store key) then (false, store)
  else (true, jsSet store key (plain.getD ""))

/-- `migrateFromPlaintext(config, workspaceId, options)`.  Note the source
computes `overwrite = options.overwrite !== false`, so an absent option
(`none`) means `overwrite = true`.  Returns the migrated-field count and the
updated store. -/
def migrateFromPlaintext (config : SftpConfig) (workspaceId : String)
    (overwriteOpt : Option Bool) (store : SecretStore) : Nat × SecretStore :=
  let overwrite := !(overwriteOpt == some false)
  let m1 := migrateField overwrite
    (secretKey workspaceId config "password") config.password store
  let m2 := migrateField overwrite
    (secretKey workspaceId config "passphrase") config.passphrase m1.2
  ((if m1.1 then 1 else 0) + (if m2.1 then 1 else 0), m2.2)

/-- `migrateAll(configs, workspaceId, options)`: runs
`migrateFromPlaintext` over the configs in order, summing the counts. -/
def migrateAll (configs : List SftpConfig) (workspaceId : String)
    (overwriteOpt : Option Bool) (store : SecretStore) : Nat × SecretStore :=
  match configs with
  | [] => (0, store)
  | config :: rest =>
    let r := migrateFromPlaintext config workspaceId overwriteOpt store
    let rr := migrateAll rest workspaceId overwriteOpt r.2
    (r.1 + rr.1, rr.2)

/-- Whether secret storage already holds a non-empty value for a field
whenever the config holds a non-empty plaintext value for it (the
precondition under which a `migrateFromPlaintext` call writes nothing). -/
def fieldCovered (key : String) (plain : Option String)
    (store : SecretStore) : Prop :=
  isNonEmptyStr plain = true → isNonEmptyStr (jsGet store key) = true

/-- `fieldCovered` for both secret fields of a config. -/
def configCovered (config : SftpConfig) (workspaceId : String)
    (store : SecretStore) : Prop :=
  fieldCovered (secretKey workspaceId config "password") config.password store ∧
  fieldCovered (secretKey workspaceId config "passphrase") config.passphrase store

/-- A concrete config with a plaintext password (witness input). -/
def cfgPw : SftpConfig := { host := "h", username := "u", password := some "pw" }

/-! ## `TransferQueue`

The queue runs on Node's single-threaded event loop, so the synchronous
blocks of the source — the body of `enqueue`, the token-cancellation
callback, the `_drain` `while` loop, and the `.finally` completion handler
(together with the preceding `resolve`/`reject` of the item's future) — are
atomic.  The embedding is a state machine whose transitions are exactly
these blocks.  Items are identified by their enqueue sequence number; task
bodies are opaque, a completion event carries the task's own outcome. -/

/-- The outcome a finished task settles its item's future with. -/
inductive TaskOutcome
  | resolved
  | taskError
deriving DecidableEq, Repr

/-- Lifecycle of one queue item together with its future's settlement:
`pending` = appended, not started; `started` = `item.started`, task running;
`done o` = task finished, the future settled with the task's own outcome;
`canceledBeforeStart` = token fired before start (`item.canceled`), item
filtered out of the queue, future rejected with `OPERATION_CANCELED`;
`rejectedAtEnqueue` = token already canceled inside `enqueue`, future
rejected with `OPERATION_CANCELED`, item never pushed; `unused` = sequence
number not yet allocated. -/
inductive ItemStatus
  | unused
  | pending
  | started
  | done (outcome : TaskOutcome)
  | canceledBeforeStart
  | rejectedAtEnqueue
deriving DecidableEq, Repr

/-- Point update of the status map. -/
def setStatus (f : Nat → ItemStatus) (i : Nat) (st : ItemStatus) :
    Nat → ItemStatus :=
  fun j => if j = i then st else f j

/-- `TransferQueue` state: `queue` holds the ids of pending items in FIFO
order (`this.queue`), `activeCount` and `concurrency` as in the source,
`status` the lifecycle of every allocated id, `nextId` the next enqueue
sequence number, and `startedLog` the ids in the order `_drain` started
them (the observation used to state FIFO admission). -/
structure TQState where
  concurrency : Nat
  queue : List Nat
  activeCount : Nat
  status : Nat → ItemStatus
  nextId : Nat
  startedLog : List Nat

/-- The `while` loop of `_drain`, structurally recursive on the queue
(every iteration shifts one item): while `activeCount < concurrency` and
the queue is non-empty, shift the head; skip it if it was canceled;
otherwise mark it started, bump the active count, and run its task. -/
def drainLoop : List Nat → TQState → TQState
  | [], s => { s with queue := [] }
  | i :: rest, s =>
    if s.activeCount < s.concurrency then
      if s.status i = .canceledBeforeStart then
        drainLoop rest { s with queue := rest }
      else
        drainLoop rest { s with
          queue := rest,
          status := setStatus s.status i .started,
          activeCount := s.activeCount + 1,
          startedLog := s.startedLog ++ [i] }
    else { s with queue := i :: rest }

/-- `TransferQueue._drain()`. -/
def drain (s : TQState) : TQState := drainLoop s.queue s

/-- What the promise returned by `enqueue` observably did at call time. -/
inductive EnqueueOutcome
  | rejectedCanceled (id : Nat)
  | queued (id : Nat)
deriving DecidableEq, Repr

/-- `TransferQueue.enqueue(task, options)` with `tokCanceled` the value of
`token.isCancellationRequested` at entry: an already-canceled token rejects
immediately and the item never enters the queue; otherwise the item is
pushed and `_drain()` runs. -/
def tqEnqueue (s : TQState) (tokCanceled : Bool) : TQState × EnqueueOutcome :=
  let i := s.nextId
  if tokCanceled then
    ({ s with nextId := i + 1,
              status := setStatus s.status i .rejectedAtEnqueue },
     .rejectedCanceled i)
  else
    (drain { s with nextId := i + 1,
                    status := setStatus s.status i .pending,
                    queue := s.queue ++ [i] },
     .queued i)

/-- The token's `onCancellationRequested` callback registered by `enqueue`:
a no-op once `item.started` is set (it is never reset, so started and
finished items are unaffected); for a pending item it marks it canceled,
filters it out of `this.queue`, and rejects its future. -/
def cancelItem (s : TQState) (i : Nat) : TQState :=
  if s.status i = .pending then
    { s with status := setStatus s.status i .canceledBeforeStart,
             queue := s.queue.filter (fun j => j ≠ i) }
  else s

/-- Task completion: the task's promise settles with its own outcome, which
resolves/rejects the item's future, then the `.finally` handler decrements
the active count (floored at 0 by `Math.max`) and re-runs `_drain()` with
no external call. -/
def complete (s : TQState) (i : Nat) (o : TaskOutcome) : TQState :=
  if s.status i = .started then
    drain { s with status := setStatus s.status i (.done o),
                   activeCount := s.activeCount - 1 }
  else s

/-- The queue constructed with `new TransferQueue({concurrency})`:
`Math.max(1, ...)` floors the cap at 1. -/
def TQState.init (concurrency : Nat) : TQState :=
  { concurrency := max 1 concurrency, queue := [], activeCount := 0,
    status := fun _ => .unused, nextId := 0, startedLog := [] }

/-- One atomic event of the queue. -/
inductive TQStep : TQState → TQState → Prop
  | enq (s : TQState) (c : Bool) : TQStep s (tqEnqueue s c).1
  | cancel (s : TQState) (i : Nat) : TQStep s (cancelItem s i)
  | compl (s : TQState) (i : Nat) (o : TaskOutcome) : TQStep s (complete s i o)

/-- States reachable from a freshly constructed queue. -/
def TQReachable (concurrency : Nat) (s : TQState) : Prop :=
  Relation.ReflTransGen TQStep (TQState.init concurrency) s

/-- Number of allocated ids currently in `started` state. -/
def countStarted (f : Nat → ItemStatus) : Nat → Nat
  | 0 => 0
  | n + 1 => countStarted f n + (if f n = .started then 1 else 0)

/-- The inductive invariant of the queue state machine. -/
structure TQInv (s : TQState) : Prop where
  cap : s.activeCount ≤ s.concurrency
  queue_pending : ∀ i ∈ s.queue, s.status i = .pending
  queue_lt : ∀ i ∈ s.queue, i < s.nextId
  queue_sorted : s.queue.Pairwise (· < ·)
  log_lt_queue : ∀ a ∈ s.startedLog, ∀ b ∈ s.queue, a < b
  log_sorted : s.startedLog.Pairwise (· < ·)
  log_lt_next : ∀ a ∈ s.startedLog, a < s.nextId
  fresh : ∀ i, s.nextId ≤ i → s.status i = .unused
  count : s.activeCount = countStarted s.status s.nextId

/-! ## `ConnectionManager.getConnection`

`getConnection` runs on the single-threaded event loop.  Its body has no
`await` between the `connecting.has(key)` check and
`connecting.set(key, promise)` (lines 191–212), so that whole prefix is one
atomic block, and a caller resumes atomically when the promise it awaits
settles.  The claims are per connection key, so the model tracks the two
maps' single slot for one fixed key.  `_createConnection` is modelled so
that creating an attempt allocates a fresh promise and performs the one
underlying transport `connect` invocation (counted by `connectCount`); the
attempt settling successfully stores the pooled entry (`connections.set`
runs inside `_createConnection` before its promise resolves), and settling
with failure rejects the promise.  The reuse liveness check
`_isConnectionAlive` is modelled as true (socket death is outside these
claims). -/

inductive PromState
  | pending
  | resolvedP
  | rejectedP
deriving DecidableEq, Repr

/-- Where one `getConnection` caller stands (line numbers refer to
`connectionManager.js`). -/
inductive CallerState
  | waitShared (p : Nat)   -- awaiting another caller's in-flight promise (line 196)
  | waitOwn (p : Nat)      -- awaiting the promise it created (line 215)
  | gotPooled              -- returned a pooled connection (line 206)
  | gotShared (p : Nat)    -- returned the shared promise's connection (line 196)
  | gotNew (p : Nat)       -- returned its own new connection (line 216)
  | failedConn (p : Nat)   -- own connect rejected; wrapped error rethrown (line 219)
deriving DecidableEq, Repr

/-- The promise a caller is currently awaiting, if any. -/
def waitsOn : CallerState → Option Nat
  | .waitShared p => some p
  | .waitOwn p => some p
  | _ => none

/-- Per-key manager state together with the `getConnection` callers for
that key. -/
structure CMState where
  connecting : Option Nat          -- the `this.connecting` slot for the key
  pooled : Option Nat              -- the `this.connections` slot for the key
  proms : Nat → Option PromState   -- allocated connect-attempt promises
  callers : List CallerState
  nextProm : Nat
  connectCount : Nat               -- transport connect invocations

/-- Point update of the promise table. -/
def setProm (f : Nat → Option PromState) (p : Nat) (v : Option PromState) :
    Nat → Option PromState :=
  fun q => if q = p then v else f q

/-- Lines 191–215: the synchronous prefix run when a new caller arrives —
await an in-flight promise if one exists, else return the pooled (alive)
connection if one exists, else create a fresh connect attempt, record it in
`connecting`, and await it. -/
def arriveStep (s : CMState) : CMState :=
  match s.connecting with
  | some p => { s with callers := s.callers ++ [.waitShared p] }
  | none =>
    match s.pooled with
    | some _ => { s with callers := s.callers ++ [.gotPooled] }
    | none =>
      { s with callers := s.callers ++ [.waitOwn s.nextProm],
               proms := setProm s.proms s.nextProm (some .pending),
               connecting := some s.nextProm,
               nextProm := s.nextProm + 1,
               connectCount := s.connectCount + 1 }

/-- A pending connect attempt succeeds: `_createConnection` stores the
pooled entry and its promise resolves. -/
def settleOkStep (s : CMState) (p : Nat) : CMState :=
  if s.proms p = some .pending then
    { s with proms := setProm s.proms p (some .resolvedP), pooled := some p }
  else s

/-- A pending connect attempt fails: `_createConnection` closes the client,
wraps the error, and its promise rejects. -/
def settleFailStep (s : CMState) (p : Nat) : CMState :=
  if s.proms p = some .pending then
    { s with proms := setProm s.proms p (some .rejectedP) }
  else s

/-- Caller `i` resumes after the promise it awaits settles, running the
next synchronous block of `getConnection`:
* shared promise resolved → `return await …` (line 196) yields the result;
* shared promise rejected → the `catch` deletes whatever `connecting` entry
  exists (line 198) and the caller falls through to lines 202–215: return
  the pooled connection if present, else create a fresh attempt, record it,
  and await it;
* own promise resolved → the `finally` deletes the `connecting` entry
  (line 221) and the new connection is returned;
* own promise rejected → `catch` and `finally` delete the entry (lines
  218/221) and the wrapped error is thrown. -/
def resumeStep (s : CMState) (i : Nat) : CMState :=
  match s.callers.get? i with
  | some (.waitShared p) =>
    match s.proms p with
    | some .resolvedP => { s with callers := s.callers.set i (.gotShared p) }
    | some .rejectedP =>
      match s.pooled with
      | some _ => { s with connecting := none,
                           callers := s.callers.set i .gotPooled }
      | none =>
        { s with callers := s.callers.set i (.waitOwn s.nextProm),
                 proms := setProm s.proms s.nextProm (some .pending),
                 connecting := some s.nextProm,
                 nextProm := s.nextProm + 1,
                 connectCount := s.connectCount + 1 }
    | _ => s
  | some (.waitOwn p) =>
    match s.proms p with
    | some .resolvedP =>
      { s with connecting := none, callers := s.callers.set i (.gotNew p) }
    | some .rejectedP =>
      { s with connecting := none, callers := s.callers.set i (.failedConn p) }
    | _ => s
  | _ => s

/-- The events of the per-key model. -/
inductive CMEv
  | arrive
  | settleOk (p : Nat)
  | settleFail (p : Nat)
  | resume (i : Nat)
deriving DecidableEq, Repr

/-- Event application. -/
def applyEv : CMEv → CMState → CMState
  | .arrive, s => arriveStep s
  | .settleOk p, s => settleOkStep s p
  | .settleFail p, s => settleFailStep s p
  | .resume i, s => resumeStep s i

/-- A fresh manager: empty maps, no callers, no attempts. -/
def cmInit : CMState :=
  { connecting := none, pooled := none, proms := fun _ => none,
    callers := [], nextProm := 0, connectCount := 0 }

/-- One event of the model. -/
def CMStep (s s' : CMState) : Prop := ∃ e : CMEv, s' = applyEv e s

/-- States reachable from a fresh manager. -/
def CMReachable (s : CMState) : Prop :=
  Relation.ReflTransGen CMStep cmInit s

/-- One event that is not a connect failure. -/
def CMStepOk (s s' : CMState) : Prop :=
  ∃ e : CMEv, (∀ p, e ≠ .settleFail p) ∧ s' = applyEv e s

/-- States reachable from a fresh manager when no connect attempt fails. -/
def CMReachableOk (s : CMState) : Prop :=
  Relation.ReflTransGen CMStepOk cmInit s

/-- The inductive invariant of the per-key model on failure-free traces. -/
structure CMInv (s : CMState) : Prop where
  no_reject : ∀ p, s.proms p ≠ some .rejectedP
  conn_le : s.connectCount ≤ 1
  nextProm_eq : s.nextProm = s.connectCount
  zero : s.connectCount = 0 →
    s.connecting = none ∧ s.pooled = none ∧ s.callers = []
  one_prom : s.connectCount = 1 → s.proms 0 ≠ none
  proms_fresh : ∀ p, s.nextProm ≤ p → s.proms p = none
  pending_conn : s.proms 0 = some .pending →
    s.connecting = some 0 ∧ s.pooled = none
  resolved_pool : s.proms 0 = some .resolvedP → s.pooled = some 0
  conn_is0 : ∀ p, s.connecting = some p → p = 0 ∧ s.proms 0 ≠ none
  pooled_is0 : ∀ p, s.pooled = some p → p = 0 ∧ s.proms 0 = some .resolvedP
  callers_wait : ∀ c ∈ s.callers, ∀ p, waitsOn c = some p →
    p = 0 ∧ s.proms 0 ≠ none

/-! ## Theorems -/

/-- Equation lemma: with the guard enabled, `assertRemotePathSafe` branches
exactly on `remoteOutsideBase`. -/
theorem assertRemotePathSafe_eq (base cand : String) :
    assertRemotePathSafe base cand =
      if remoteOutsideBase base cand then
        .error { code := "PATH_GUARD_REMOTE_TRAVERSAL"
                 message := "Remote path traversal blocked: "
                   ++ normalizeRemotePath (jsOr cand "/") ++ " is outside "
                   ++ normalizeRemotePath (jsOr base "/") }
      else .ok (normalizeRemotePath (jsOr cand "/")) := rfl

/-- C3: with the guard enabled, `assertRemotePathSafe` throws an error whose
code is `PATH_GUARD_REMOTE_TRAVERSAL` exactly when the normalized candidate
is not contained in the normalized base (its posix-relative path from the
base starts with `..` or is absolute), and otherwise returns the normalized
candidate; in particular base `/srv/app` with candidate
`/srv/app/../../etc/passwd` throws, and base `/srv/app` with candidate
`/srv/app/sub/file.txt` returns the normalized candidate. -/
theorem assertRemotePathSafe_characterization :
    (∀ base cand, remoteOutsideBase base cand = true →
      ∃ msg, assertRemotePathSafe base cand =
        .error { code := "PATH_GUARD_REMOTE_TRAVERSAL", message := msg }) ∧
    (∀ base cand, remoteOutsideBase base cand = false →
      assertRemotePathSafe base cand = .ok (normalizeRemotePath (jsOr cand "/"))) ∧
    (∃ msg, assertRemotePathSafe "/srv/app" "/srv/app/../../etc/passwd" =
      .error { code := "PATH_GUARD_REMOTE_TRAVERSAL", message := msg }) ∧
    assertRemotePathSafe "/srv/app" "/srv/app/sub/file.txt" =
      .ok "/srv/app/sub/file.txt" := by
  refine ⟨fun base cand h => ?_, fun base cand h => ?_,
    ⟨"Remote path traversal blocked: /etc/passwd is outside /srv/app",
      by rfl⟩, by rfl⟩
  · rw [assertRemotePathSafe_eq, h]
    exact ⟨_, rfl⟩
  · rw [assertRemotePathSafe_eq, h]
    rfl

/-- Witness for C3 at the two concrete inputs of the claim. -/
theorem assertRemotePathSafe_characterization_witness :
    remoteOutsideBase "/srv/app" "/srv/app/../../etc/passwd" = true ∧
    (∃ msg, assertRemotePathSafe "/srv/app" "/srv/app/../../etc/passwd" =
      .error { code := "PATH_GUARD_REMOTE_TRAVERSAL", message := msg }) ∧
    remoteOutsideBase "/srv/app" "/srv/app/sub/file.txt" = false ∧
    assertRemotePathSafe "/srv/app" "/srv/app/sub/file.txt" =
      .ok (normalizeRemotePath (jsOr "/srv/app/sub/file.txt" "/")) :=
  ⟨by decide,
   assertRemotePathSafe_characterization.1 "/srv/app" "/srv/app/../../etc/passwd"
     (by decide),
   by decide,
   assertRemotePathSafe_characterization.2.1 "/srv/app" "/srv/app/sub/file.txt"
     (by decide)⟩

/-- C9: any remote path normalizing to `/` is blocked by `checkDeleteSafety`
and refused by `deleteFromServer` before enqueueing, for every safety
configuration — even with `blockCriticalDeletes` disabled and `/` absent
from `criticalRemotePaths`. -/
theorem deleteRoot_always_blocked :
    ∀ (safety : SafetyConfig) (remotePath : String),
      normalizeRemotePath remotePath = "/" →
      checkDeleteSafety safety remotePath = .blocked "Root path deletion is blocked." ∧
      deleteFromServerDecision safety remotePath =
        .refuse "Root path deletion is blocked." := by
  intro safety remotePath h
  have hc : checkDeleteSafety safety remotePath =
      .blocked "Root path deletion is blocked." := by
    unfold checkDeleteSafety
    simp only [h, if_true]
  exact ⟨hc, by unfold deleteFromServerDecision; rw [hc]⟩

/-- Witness for C9: `/a/..` normalizes to `/` and is refused even when
critical-delete blocking is off and `/` is not a configured critical path. -/
theorem deleteRoot_always_blocked_witness :
    normalizeRemotePath "/a/.." = "/" ∧
    checkDeleteSafety laxSafetyConfig "/a/.." =
      .blocked "Root path deletion is blocked." ∧
    deleteFromServerDecision laxSafetyConfig "/a/.." =
      .refuse "Root path deletion is blocked." :=
  ⟨by decide,
   (deleteRoot_always_blocked laxSafetyConfig "/a/.." (by decide)).1,
   (deleteRoot_always_blocked laxSafetyConfig "/a/.." (by decide)).2⟩

/-- Writing a property makes it the one found at its key. -/
theorem jsGet_jsSet_self_entry {β : Type} (entries : JsObj β)
    (k : String) (v : β) :
    jsGet (jsSet entries k v) k = some v := by
  induction entries with
  | nil => simp [jsSet, jsGet]
  | cons hd tl ih =>
    by_cases hk : hd.1 = k
    · have hany : ((hd :: tl).any fun p => decide (p.1 = k)) = true := by
        simp [hk]
      simp [jsSet, hany, jsGet, hk]
    · by_cases ht : (tl.any fun p => decide (p.1 = k)) = true
      · have hany : ((hd :: tl).any fun p => decide (p.1 = k)) = true := by
          simp [ht]
        have htl : jsSet tl k v =
            tl.map (fun p => if p.1 = k then (k, v) else p) := by
          simp [jsSet, ht]
        simp only [jsSet, hany, if_true, List.map_cons, jsGet,
          if_neg hk]
        rw [htl] at ih
        exact ih
      · have hany : ¬((hd :: tl).any fun p => decide (p.1 = k)) = true := by
          simp_all
        have htl : jsSet tl k v = tl ++ [(k, v)] := by
          simp [jsSet, ht]
        simp only [jsSet, if_neg hany, List.cons_append, jsGet,
          if_neg hk]
        rw [htl] at ih
        exact ih

/-- C2: `verifyFingerprint` follows exactly the claimed case analysis:
`off` → `policy_off`; unknown host and `strict` → blocked `unknown_host`;
unknown host and `tofu` → allowed `trusted_now`, persisting the offered
fingerprint; stored fingerprint equal → allowed `match`; stored fingerprint
different → blocked `mismatch` carrying the expected (stored) and actual
(offered) fingerprints. -/
theorem verifyFingerprint_cases :
    ∀ (st : TrustState) (config : SftpConfig) (fp policy now : String),
      (policy = "off" →
        verifyFingerprint st config fp policy now =
          ({ allowed := true, policy := policy, reason := "policy_off" }, st)) ∧
      (policy = "strict" →
        jsGet st.entries (hostKey config) = none →
        verifyFingerprint st config fp policy now =
          ({ allowed := false, policy := policy, reason := "unknown_host",
             message := some ("No trusted host key exists for "
               ++ hostKey config ++ ".") }, st)) ∧
      (policy = "tofu" →
        jsGet st.entries (hostKey config) = none →
        (verifyFingerprint st config fp policy now).1 =
          { allowed := true, policy := policy, reason := "trusted_now" } ∧
        jsGet (verifyFingerprint st config fp policy now).2.entries
            (hostKey config) =
          some { host := config.host, port := jsPortOr22 config.port,
                 fingerprint := fp, source := "tofu", trustedAt := now } ∧
        (verifyFingerprint st config fp policy now).2.persisted =
          (verifyFingerprint st config fp policy now).2.entries) ∧
      (∀ e, policy ≠ "off" →
        jsGet st.entries (hostKey config) = some e →
        e.fingerprint = fp →
        verifyFingerprint st config fp policy now =
          ({ allowed := true, policy := policy, reason := "match" }, st)) ∧
      (∀ e, policy ≠ "off" →
        jsGet st.entries (hostKey config) = some e →
        e.fingerprint ≠ fp →
        verifyFingerprint st config fp policy now =
          ({ allowed := false, policy := policy, reason := "mismatch",
             expected := some e.fingerprint, actual := some fp,
             message := some ("Host key mismatch for "
               ++ hostKey config ++ ".") }, st)) := by
  intro st config fp policy now
  refine ⟨fun hoff => ?_, fun hs hnone => ?_, fun ht hnone => ?_,
    fun e hoff he hfp => ?_, fun e hoff he hfp => ?_⟩
  · simp [verifyFingerprint, hoff]
  · subst hs; simp [verifyFingerprint, hnone]
  · subst ht
    refine ⟨?_, ?_, ?_⟩ <;>
      simp [verifyFingerprint, hnone, trustFingerprint, jsGet_jsSet_self_entry]
  · simp [verifyFingerprint, hoff, he, hfp]
  · simp [verifyFingerprint, hoff, he, hfp]

/-- Witness for C2: a three-call TOFU scenario on an empty store — first
call trusts, second matches, third mismatches. -/
theorem verifyFingerprint_cases_witness :
    (verifyFingerprint ⟨[], []⟩ { host := "h" } "fp1" "tofu" "t0").1 =
      { allowed := true, policy := "tofu", reason := "trusted_now" } ∧
    (verifyFingerprint ⟨[], []⟩ { host := "h" } "fp1" "off" "t0").1.reason =
      "policy_off" ∧
    (verifyFingerprint ⟨[], []⟩ { host := "h" } "fp1" "strict" "t0").1.reason =
      "unknown_host" := by
  have h1 := (verifyFingerprint_cases ⟨[], []⟩ { host := "h" } "fp1" "tofu" "t0").2.2.1
    rfl (by decide)
  have h2 := (verifyFingerprint_cases ⟨[], []⟩ { host := "h" } "fp1" "off" "t0").1 rfl
  have h3 := (verifyFingerprint_cases ⟨[], []⟩ { host := "h" } "fp1" "strict" "t0").2.1
    rfl (by decide)
  exact ⟨h1.1, by rw [h2], by rw [h3]⟩

/-- C4: under `strict` policy with no stored entry for the host key,
`verifyFingerprint` leaves the trust store — both the in-memory entries and
the persisted file contents — completely unchanged. -/
theorem verifyFingerprint_strict_unknown_frame :
    ∀ (st : TrustState) (config : SftpConfig) (fp now : String),
      jsGet st.entries (hostKey config) = none →
      (verifyFingerprint st config fp "strict" now).2 = st := by
  intro st config fp now hnone
  simp [verifyFingerprint, hnone]

/-- Witness for C4 on an empty store. -/
theorem verifyFingerprint_strict_unknown_frame_witness :
    jsGet (TrustState.mk [] []).entries (hostKey { host := "h" }) = none ∧
    (verifyFingerprint ⟨[], []⟩ { host := "h" } "fp1" "strict" "t0").2 =
      ⟨[], []⟩ :=
  ⟨by decide,
   verifyFingerprint_strict_unknown_frame ⟨[], []⟩ { host := "h" } "fp1" "t0"
     (by decide)⟩

/-- Mapping the in-place update for key `k` does not change other keys. -/
theorem jsGet_map_set {β : Type} (l : JsObj β) (k k' : String) (v : β)
    (h : k' ≠ k) :
    jsGet (l.map fun p => if p.1 = k then (k, v) else p) k' = jsGet l k' := by
  induction l with
  | nil => rfl
  | cons hd tl ih =>
    by_cases hk : hd.1 = k
    · simp [jsGet, hk, Ne.symm h, ih]
    · simp [jsGet, hk, ih]

/-- Appending a binding for key `k` does not change other keys. -/
theorem jsGet_append_single {β : Type} (l : JsObj β) (k k' : String) (v : β)
    (h : k' ≠ k) :
    jsGet (l ++ [(k, v)]) k' = jsGet l k' := by
  induction l with
  | nil => simp [jsGet, Ne.symm h]
  | cons hd tl ih => by_cases hk : hd.1 = k' <;> simp [jsGet, hk, ih]

/-- Writing key `k` does not change the binding of any other key. -/
theorem jsGet_jsSet_other {β : Type} (l : JsObj β) (k k' : String) (v : β)
    (h : k' ≠ k) :
    jsGet (jsSet l k v) k' = jsGet l k' := by
  by_cases hany : (l.any fun p => decide (p.1 = k)) = true
  · simp only [jsSet, hany, if_true]
    exact jsGet_map_set l k k' v h
  · simp only [jsSet, hany, if_false]
    exact jsGet_append_single l k k' v h

/-- The two secret-field keys of one config differ (they share the prefix
and end in `password` / `passphrase`). -/
theorem secretKey_password_ne_passphrase (ws : String) (config : SftpConfig) :
    secretKey ws config "password" ≠ secretKey ws config "passphrase" := by
  intro h
  have hl := congrArg (fun s => s.data.length) h
  simp only [secretKey, String.data_append, List.length_append] at hl
  rw [show ("password".data.length) = 8 from rfl,
    show ("passphrase".data.length) = 10 from rfl] at hl
  omega

/-- First branch of the `resolve` field loop: non-empty secret value and
`overwrite` off. -/
theorem resolveField_hit (am : Bool) (key : String) (plain : Option String)
    (store : SecretStore) (h : isNonEmptyStr (jsGet store key) = true) :
    resolveField am false key plain store = (jsGet store key, false, store) := by
  simp [resolveField, h]

/-- Second branch: no usable secret value, non-empty plaintext, and
`autoMigrate` on — store the plaintext and record the migration. -/
theorem resolveField_migrate (am : Bool) (key : String) (plain : Option String)
    (store : SecretStore) (h1 : isNonEmptyStr (jsGet store key) = false)
    (h2 : (isNonEmptyStr plain && am) = true) :
    resolveField am false key plain store =
      (plain, true, jsSet store key (plain.getD "")) := by
  simp [resolveField, h1, h2]

/-- Fall-through: neither a usable secret value nor a migratable plaintext
value; the field keeps the config's own value and nothing is stored. -/
theorem resolveField_skip (am : Bool) (key : String) (plain : Option String)
    (store : SecretStore) (h1 : isNonEmptyStr (jsGet store key) = false)
    (h2 : (isNonEmptyStr plain && am) = false) :
    resolveField am false key plain store = (plain, false, store) := by
  simp [resolveField, h1, h2]

/-- The field loop only ever writes its own key. -/
theorem resolveField_store_other (am ow : Bool) (key k' : String)
    (plain : Option String) (store : SecretStore) (h : k' ≠ key) :
    jsGet (resolveField am ow key plain store).2.2 k' = jsGet store k' := by
  simp only [resolveField]
  by_cases c1 : (isNonEmptyStr (jsGet store key) && !ow) = true
  · rw [if_pos c1]
  · rw [if_neg c1]
    by_cases c2 : (isNonEmptyStr plain && am) = true
    · rw [if_pos c2]
      exact jsGet_jsSet_other store key k' _ h
    · rw [if_neg c2]
      by_cases c3 : (isNonEmptyStr (jsGet store key) && ow) = true
      · rw [if_pos c3]
      · rw [if_neg c3]

/-- Re-running the field loop on a store whose value at the key agrees with
the post-state of a previous run returns the same resolved value and
migrates nothing. -/
theorem resolveField_stable (am : Bool) (key : String) (plain : Option String)
    (store store2 : SecretStore)
    (h : jsGet store2 key = jsGet (resolveField am false key plain store).2.2 key) :
    resolveField am false key plain store2 =
      ((resolveField am false key plain store).1, false, store2) := by
  by_cases c1 : isNonEmptyStr (jsGet store key) = true
  · rw [resolveField_hit am key plain store c1] at h ⊢
    rw [resolveField_hit am key plain store2 (by rw [h]; exact c1), h]
  · have c1' : isNonEmptyStr (jsGet store key) = false := by
      simpa using c1
    by_cases c2 : (isNonEmptyStr plain && am) = true
    · rw [resolveField_migrate am key plain store c1' c2] at h ⊢
      rw [jsGet_jsSet_self_entry] at h
      have hp : isNonEmptyStr plain = true := by
        cases hb : isNonEmptyStr plain
        · rw [hb] at c2; simp at c2
        · rfl
      cases plain with
      | none => simp [isNonEmptyStr] at hp
      | some s =>
        have hs : ¬(s = "") := by simpa [isNonEmptyStr] using hp
        simp only [Option.getD_some] at h
        have hhit : isNonEmptyStr (jsGet store2 key) = true := by
          rw [h]; simpa [isNonEmptyStr] using hs
        rw [resolveField_hit am key (some s) store2 hhit, h]
    · have c2' : (isNonEmptyStr plain && am) = false := by
        simpa using c2
      rw [resolveField_skip am key plain store c1' c2'] at h ⊢
      rw [resolveField_skip am key plain store2 (by rw [h]; exact c1') c2']

/-- C7: `CredentialStore.resolve` (with the `overwrite` option at its
default `false`): for each secret field it prefers an existing non-empty
secure-storage value, which is then not listed as migrated; otherwise, when
the config holds non-empty plaintext and `autoMigrate` is enabled, it
stores the plaintext into secret storage, uses it, and lists the field in
`migratedFields`; and an immediately repeated call on the resulting store
migrates nothing and returns the same resolved values. -/
theorem credResolve_spec :
    ∀ (config : SftpConfig) (ws : String) (am : Bool) (store : SecretStore)
      (dn : Bool),
      (isNonEmptyStr (jsGet store (secretKey ws config "password")) = true →
        (credResolve config ws am false store dn).password =
          jsGet store (secretKey ws config "password") ∧
        "password" ∉ (credResolve config ws am false store dn).migratedFields) ∧
      (isNonEmptyStr (jsGet store (secretKey ws config "passphrase")) = true →
        (credResolve config ws am false store dn).passphrase =
          jsGet store (secretKey ws config "passphrase") ∧
        "passphrase" ∉ (credResolve config ws am false store dn).migratedFields) ∧
      (∀ pw, isNonEmptyStr (jsGet store (secretKey ws config "password")) = false →
        config.password = some pw → pw ≠ "" → am = true →
        (credResolve config ws am false store dn).password = some pw ∧
        "password" ∈ (credResolve config ws am false store dn).migratedFields ∧
        jsGet (credResolve config ws am false store dn).store
          (secretKey ws config "password") = some pw) ∧
      (∀ pp, isNonEmptyStr (jsGet store (secretKey ws config "passphrase")) = false →
        config.passphrase = some pp → pp ≠ "" → am = true →
        (credResolve config ws am false store dn).passphrase = some pp ∧
        "passphrase" ∈ (credResolve config ws am false store dn).migratedFields ∧
        jsGet (credResolve config ws am false store dn).store
          (secretKey ws config "passphrase") = some pp) ∧
      ((credResolve config ws am false (credResolve config ws am false store dn).store
          (credResolve config ws am false store dn).didNotify).migratedFields = [] ∧
        (credResolve config ws am false (credResolve config ws am false store dn).store
          (credResolve config ws am false store dn).didNotify).password =
          (credResolve config ws am false store dn).password ∧
        (credResolve config ws am false (credResolve config ws am false store dn).store
          (credResolve config ws am false store dn).didNotify).passphrase =
          (credResolve config ws am false store dn).passphrase ∧
        (credResolve config ws am false (credResolve config ws am false store dn).store
          (credResolve config ws am false store dn).didNotify).store =
          (credResolve config ws am false store dn).store) := by
  intro config ws am store dn
  have hne : secretKey ws config "password" ≠ secretKey ws config "passphrase" :=
    secretKey_password_ne_passphrase ws config
  refine ⟨fun h => ?_, fun h => ?_, fun pw h hpw hpw0 ham => ?_,
    fun pp h hpp hpp0 ham => ?_, ?_⟩
  · -- password found in secret storage
    simp only [credResolve]
    rw [resolveField_hit am _ config.password store h]
    dsimp only
    refine ⟨rfl, ?_⟩
    cases hb : (resolveField am false (secretKey ws config "passphrase")
        config.passphrase store).2.1
    · simp [hb]
    · simp only [hb, if_true, if_false, List.nil_append, List.mem_singleton]
      decide
  · -- passphrase found in secret storage
    simp only [credResolve]
    have hother : jsGet (resolveField am false (secretKey ws config "password")
          config.password store).2.2 (secretKey ws config "passphrase") =
        jsGet store (secretKey ws config "passphrase") :=
      resolveField_store_other am false _ _ config.password store hne.symm
    rw [resolveField_hit am _ config.passphrase _ (by rw [hother]; exact h)]
    dsimp only
    refine ⟨hother, ?_⟩
    cases hb : (resolveField am false (secretKey ws config "password")
        config.password store).2.1
    · simp [hb]
    · simp only [hb, if_true, if_false, List.append_nil, List.mem_singleton]
      decide
  · -- password migrated from plaintext
    subst ham
    have h2 : (isNonEmptyStr (some pw) && true) = true := by
      simp [isNonEmptyStr, hpw0]
    have hm := resolveField_migrate true (secretKey ws config "password")
      (some pw) store h h2
    simp only [Option.getD_some] at hm
    simp only [credResolve, hpw]
    rw [hm]
    dsimp only
    refine ⟨rfl, ?_, ?_⟩
    · simp
    · rw [resolveField_store_other true false _ _ config.passphrase _ hne]
      exact jsGet_jsSet_self_entry store _ pw
  · -- passphrase migrated from plaintext
    subst ham
    have hother : jsGet (resolveField true false (secretKey ws config "password")
          config.password store).2.2 (secretKey ws config "passphrase") =
        jsGet store (secretKey ws config "passphrase") :=
      resolveField_store_other true false _ _ config.password store hne.symm
    have h2 : (isNonEmptyStr (some pp) && true) = true := by
      simp [isNonEmptyStr, hpp0]
    have hm := resolveField_migrate true (secretKey ws config "passphrase")
      (some pp) (resolveField true false (secretKey ws config "password")
        config.password store).2.2 (by rw [hother]; exact h) h2
    simp only [Option.getD_some] at hm
    simp only [credResolve, hpp]
    rw [hm]
    dsimp only
    refine ⟨rfl, ?_, jsGet_jsSet_self_entry _ _ pp⟩
    cases hb : (resolveField true false (secretKey ws config "password")
        config.password store).2.1
    · simp [hb]
    · simp [hb]
  · -- a repeated call migrates nothing and is stable
    have hst : jsGet (resolveField am false (secretKey ws config "passphrase")
          config.passphrase
          (resolveField am false (secretKey ws config "password")
            config.password store).2.2).2.2 (secretKey ws config "password") =
        jsGet (resolveField am false (secretKey ws config "password")
          config.password store).2.2 (secretKey ws config "password") :=
      resolveField_store_other am false _ _ config.passphrase _ hne
    have hr1 := resolveField_stable am (secretKey ws config "password")
      config.password store
      (resolveField am false (secretKey ws config "passphrase")
        config.passphrase
        (resolveField am false (secretKey ws config "password")
          config.password store).2.2).2.2 hst
    have hr2 := resolveField_stable am (secretKey ws config "passphrase")
      config.passphrase
      (resolveField am false (secretKey ws config "password")
        config.password store).2.2
      (resolveField am false (secretKey ws config "passphrase")
        config.passphrase
        (resolveField am false (secretKey ws config "password")
          config.password store).2.2).2.2 rfl
    simp only [credResolve]
    simp [hr1, hr2]

/-- Witness for C7: an empty secret store, a config with plaintext password
`pw`, `autoMigrate` on — the password is migrated, used, and stored. -/
theorem credResolve_spec_witness :
    isNonEmptyStr (jsGet ([] : SecretStore) (secretKey "ws" cfgPw "password")) = false ∧
    cfgPw.password = some "pw" ∧
    (credResolve cfgPw "ws" true false [] false).password = some "pw" ∧
    "password" ∈ (credResolve cfgPw "ws" true false [] false).migratedFields ∧
    jsGet (credResolve cfgPw "ws" true false [] false).store
      (secretKey "ws" cfgPw "password") = some "pw" := by
  have h := (credResolve_spec cfgPw "ws" true [] false).2.2.1 "pw" rfl rfl
    (by decide) rfl
  exact ⟨rfl, rfl, h.1, h.2.1, h.2.2⟩

/-- C8 counterexample: the source computes
`overwrite = options.overwrite !== false`, so with the option NOT set the
default is `true`, and repeating `migrateFromPlaintext` on a config whose
plaintext password is already in secret storage writes it again and returns
count 1, not 0. -/
theorem migrateFromPlaintext_default_overwrites :
    (migrateFromPlaintext cfgPw "ws" none
      (migrateFromPlaintext cfgPw "ws" none []).2).1 = 1 ∧
    ¬(migrateFromPlaintext cfgPw "ws" none
      (migrateFromPlaintext cfgPw "ws" none []).2).1 = 0 := by
  constructor <;> decide

/-- A non-empty optional string stays non-empty through `getD ""`. -/
theorem isNonEmptyStr_getD (plain : Option String)
    (hp : isNonEmptyStr plain = true) :
    isNonEmptyStr (some (plain.getD "")) = true := by
  cases plain with
  | none => simp [isNonEmptyStr] at hp
  | some s => simpa [isNonEmptyStr] using hp

/-- `migrateField` skips a field with no usable plaintext. -/
theorem migrateField_skip_empty (ow : Bool) (key : String)
    (plain : Option String) (store : SecretStore)
    (h : isNonEmptyStr plain = false) :
    migrateField ow key plain store = (false, store) := by
  simp [migrateField, h]

/-- `migrateField` skips a field whose secret is already present when
`overwrite` is off. -/
theorem migrateField_skip_covered (ow : Bool) (key : String)
    (plain : Option String) (store : SecretStore)
    (hp : isNonEmptyStr plain = true)
    (hs : (!ow && isNonEmptyStr (jsGet store key)) = true) :
    migrateField ow key plain store = (false, store) := by
  simp [migrateField, hp, hs]

/-- `migrateField` writes the plaintext in the remaining case. -/
theorem migrateField_write (ow : Bool) (key : String)
    (plain : Option String) (store : SecretStore)
    (hp : isNonEmptyStr plain = true)
    (hs : (!ow && isNonEmptyStr (jsGet store key)) = false) :
    migrateField ow key plain store =
      (true, jsSet store key (plain.getD "")) := by
  simp [migrateField, hp, hs]

/-- `migrateField` with `overwrite` off writes nothing for a covered
field. -/
theorem migrateField_covered (key : String) (plain : Option String)
    (store : SecretStore) (h : fieldCovered key plain store) :
    migrateField false key plain store = (false, store) := by
  cases hp : isNonEmptyStr plain
  · exact migrateField_skip_empty false key plain store hp
  · exact migrateField_skip_covered false key plain store hp (by simp [h hp])

/-- `migrateField` never erases a non-empty stored value at any key. -/
theorem migrateField_preserves_nonEmpty (ow : Bool) (key k' : String)
    (plain : Option String) (store : SecretStore)
    (h : isNonEmptyStr (jsGet store k') = true) :
    isNonEmptyStr (jsGet (migrateField ow key plain store).2 k') = true := by
  by_cases hp : isNonEmptyStr plain = true
  · by_cases hs : (!ow && isNonEmptyStr (jsGet store key)) = true
    · rw [migrateField_skip_covered ow key plain store hp hs]
      exact h
    · rw [migrateField_write ow key plain store hp (by simpa using hs)]
      by_cases hk : k' = key
      · subst hk
        dsimp only
        rw [jsGet_jsSet_self_entry]
        exact isNonEmptyStr_getD plain hp
      · dsimp only
        rw [jsGet_jsSet_other store key k' _ hk]
        exact h
  · rw [migrateField_skip_empty ow key plain store (by simpa using hp)]
    exact h

/-- After `migrateField` runs for a field, that field is covered. -/
theorem migrateField_establishes (ow : Bool) (key : String)
    (plain : Option String) (store : SecretStore) :
    fieldCovered key plain (migrateField ow key plain store).2 := by
  intro hp
  by_cases hs : (!ow && isNonEmptyStr (jsGet store key)) = true
  · rw [migrateField_skip_covered ow key plain store hp hs]
    exact ((Bool.and_eq_true _ _).mp hs).2
  · rw [migrateField_write ow key plain store hp (by simpa using hs)]
    dsimp only
    rw [jsGet_jsSet_self_entry]
    exact isNonEmptyStr_getD plain hp

/-- `fieldCovered` is preserved by any `migrateField` run. -/
theorem migrateField_preserves_covered (ow : Bool) (key k2 : String)
    (plain2 plain : Option String) (store : SecretStore)
    (h : fieldCovered k2 plain2 store) :
    fieldCovered k2 plain2 (migrateField ow key plain store).2 :=
  fun hp => migrateField_preserves_nonEmpty ow key k2 plain store (h hp)

/-- `migrateFromPlaintext` on a covered config with `overwrite: false`
writes no fields and returns 0. -/
theorem migrateFromPlaintext_covered (config : SftpConfig) (ws : String)
    (store : SecretStore) (h : configCovered config ws store) :
    migrateFromPlaintext config ws (some false) store = (0, store) := by
  simp only [migrateFromPlaintext,
    show (!((some false : Option Bool) == some false)) = false from rfl]
  rw [migrateField_covered _ _ _ h.1]
  dsimp only
  rw [migrateField_covered _ _ _ h.2]
  simp

/-- `migrateFromPlaintext` never erases a non-empty stored value. -/
theorem migrateFromPlaintext_preserves_nonEmpty (config : SftpConfig)
    (ws : String) (o : Option Bool) (store : SecretStore) (k' : String)
    (h : isNonEmptyStr (jsGet store k') = true) :
    isNonEmptyStr (jsGet (migrateFromPlaintext config ws o store).2 k') = true := by
  simp only [migrateFromPlaintext]
  exact migrateField_preserves_nonEmpty _ _ _ _ _
    (migrateField_preserves_nonEmpty _ _ _ _ _ h)

/-- After `migrateFromPlaintext`, its own config is covered. -/
theorem migrateFromPlaintext_establishes (config : SftpConfig) (ws : String)
    (o : Option Bool) (store : SecretStore) :
    configCovered config ws (migrateFromPlaintext config ws o store).2 := by
  constructor
  · intro hp
    simp only [migrateFromPlaintext]
    exact migrateField_preserves_nonEmpty _ _ _ _ _
      (migrateField_establishes _ _ _ store hp)
  · intro hp
    simp only [migrateFromPlaintext]
    exact migrateField_establishes _ _ _ _ hp

/-- `configCovered` of any config is preserved by `migrateFromPlaintext`. -/
theorem migrateFromPlaintext_preserves_covered (c config : SftpConfig)
    (ws : String) (o : Option Bool) (store : SecretStore)
    (h : configCovered c ws store) :
    configCovered c ws (migrateFromPlaintext config ws o store).2 :=
  ⟨fun hp => migrateFromPlaintext_preserves_nonEmpty config ws o store _ (h.1 hp),
   fun hp => migrateFromPlaintext_preserves_nonEmpty config ws o store _ (h.2 hp)⟩

/-- `configCovered` of any config is preserved by `migrateAll`. -/
theorem migrateAll_preserves_covered (c : SftpConfig)
    (configs : List SftpConfig) (ws : String) (o : Option Bool)
    (store : SecretStore) (h : configCovered c ws store) :
    configCovered c ws (migrateAll configs ws o store).2 := by
  induction configs generalizing store with
  | nil => exact h
  | cons hd tl ih =>
    simp only [migrateAll]
    exact ih _ (migrateFromPlaintext_preserves_covered c hd ws o store h)

/-- After `migrateAll`, every config in the list is covered. -/
theorem migrateAll_establishes (configs : List SftpConfig) (ws : String)
    (o : Option Bool) (store : SecretStore) :
    ∀ c ∈ configs, configCovered c ws (migrateAll configs ws o store).2 := by
  induction configs generalizing store with
  | nil => intro c hc; cases hc
  | cons hd tl ih =>
    intro c hc
    rcases List.mem_cons.mp hc with hc | hc
    · subst hc
      simp only [migrateAll]
      exact migrateAll_preserves_covered c tl ws o _
        (migrateFromPlaintext_establishes c ws o store)
    · simp only [migrateAll]
      exact ih _ c hc

/-- `migrateAll` on covered configs with `overwrite: false` writes nothing
and returns 0. -/
theorem migrateAll_covered (configs : List SftpConfig) (ws : String)
    (store : SecretStore) (h : ∀ c ∈ configs, configCovered c ws store) :
    migrateAll configs ws (some false) store = (0, store) := by
  induction configs with
  | nil => rfl
  | cons hd tl ih =>
    simp only [migrateAll]
    rw [migrateFromPlaintext_covered hd ws store (h hd (List.mem_cons_self hd tl))]
    dsimp only
    rw [ih (fun c hc => h c (List.mem_cons_of_mem hd hc))]
    simp

/-- C8 amended: `migrateFromPlaintext` / `migrateAll` are idempotent when
`overwrite: false` is passed explicitly (the option defaults to `true` when
absent): a repeated call with `overwrite: false` writes no fields and
returns a count of 0. -/
theorem migrate_overwriteFalse_idempotent :
    (∀ (config : SftpConfig) (ws : String) (store : SecretStore),
      migrateFromPlaintext config ws (some false)
        (migrateFromPlaintext config ws (some false) store).2 =
      (0, (migrateFromPlaintext config ws (some false) store).2)) ∧
    (∀ (configs : List SftpConfig) (ws : String) (store : SecretStore),
      migrateAll configs ws (some false)
        (migrateAll configs ws (some false) store).2 =
      (0, (migrateAll configs ws (some false) store).2)) :=
  ⟨fun config ws store => migrateFromPlaintext_covered config ws _
    (migrateFromPlaintext_establishes config ws (some false) store),
   fun configs ws store => migrateAll_covered configs ws _
    (migrateAll_establishes configs ws (some false) store)⟩

/-- `countStarted` ignores updates at ids at or above the counted range. -/
theorem countStarted_setStatus_ge (f : Nat → ItemStatus) (h : Nat)
    (st : ItemStatus) :
    ∀ n, n ≤ h → countStarted (setStatus f h st) n = countStarted f n := by
  intro n
  induction n with
  | zero => intro _; rfl
  | succ m ih =>
    intro hm
    simp only [countStarted]
    rw [ih (by omega), show setStatus f h st m = f m from by
      unfold setStatus; rw [if_neg (by omega)]]

/-- Starting a pending id inside the range bumps the count by one. -/
theorem countStarted_set_started (f : Nat → ItemStatus) (h : Nat)
    (hf : f h = .pending) :
    ∀ n, h < n →
      countStarted (setStatus f h .started) n = countStarted f n + 1 := by
  intro n
  induction n with
  | zero => omega
  | succ m ih =>
    intro hn
    simp only [countStarted]
    by_cases hc : h = m
    · subst hc
      rw [countStarted_setStatus_ge f h .started h le_rfl,
        show setStatus f h .started h = .started from by simp [setStatus], hf]
      simp
    · rw [ih (by omega), show setStatus f h .started m = f m from by
        unfold setStatus; rw [if_neg (by omega)]]
      omega

/-- Retiring a started id inside the range drops the count by one. -/
theorem countStarted_set_unstarted (f : Nat → ItemStatus) (h : Nat)
    (st : ItemStatus) (hf : f h = .started) (hst : st ≠ .started) :
    ∀ n, h < n →
      countStarted (setStatus f h st) n + 1 = countStarted f n := by
  intro n
  induction n with
  | zero => omega
  | succ m ih =>
    intro hn
    simp only [countStarted]
    by_cases hc : h = m
    · subst hc
      rw [countStarted_setStatus_ge f h st h le_rfl,
        show setStatus f h st h = st from by simp [setStatus], hf,
        if_neg hst]
      simp
    · rw [← ih (by omega), show setStatus f h st m = f m from by
        unfold setStatus; rw [if_neg (by omega)]]
      omega

/-- Updates between non-started states leave the count unchanged. -/
theorem countStarted_set_preserve (f : Nat → ItemStatus) (h : Nat)
    (st : ItemStatus) (hf : f h ≠ .started) (hst : st ≠ .started) :
    ∀ n, countStarted (setStatus f h st) n = countStarted f n := by
  intro n
  induction n with
  | zero => rfl
  | succ m ih =>
    simp only [countStarted]
    rw [ih]
    by_cases hc : h = m
    · subst hc
      rw [show setStatus f h st h = st from by simp [setStatus], if_neg hst,
        if_neg hf]
    · rw [show setStatus f h st m = f m from by
        unfold setStatus; rw [if_neg (by omega)]]

/-- A started id inside the range witnesses a positive count. -/
theorem countStarted_pos (f : Nat → ItemStatus) (h : Nat)
    (hf : f h = .started) :
    ∀ n, h < n → 1 ≤ countStarted f n := by
  intro n
  induction n with
  | zero => omega
  | succ m ih =>
    intro hn
    simp only [countStarted]
    by_cases hc : h = m
    · subst hc; rw [hf]; simp
    · have := ih (by omega); omega

/-- `_drain` never touches an item that is not pending (given that the
queue holds only pending, strictly increasing ids). -/
theorem drainLoop_status_of_ne_pending :
    ∀ (q : List Nat) (s : TQState) (j : Nat),
      (∀ i ∈ q, s.status i = .pending) → q.Pairwise (· < ·) →
      s.status j ≠ .pending → (drainLoop q s).status j = s.status j := by
  intro q
  induction q with
  | nil => intro s j _ _ _; rfl
  | cons i rest ih =>
    intro s j h1 h2 hj
    have hip : s.status i = .pending := h1 i (List.mem_cons_self i rest)
    simp only [drainLoop]
    by_cases hc : s.activeCount < s.concurrency
    · rw [if_pos hc, if_neg (by rw [hip]; intro hfalse; cases hfalse)]
      have hji : j ≠ i := fun he => hj (he ▸ hip)
      have hpair := (List.pairwise_cons.mp h2)
      have h1' : ∀ b ∈ rest, (setStatus s.status i .started) b = .pending := by
        intro b hb
        have : b ≠ i := by
          have := hpair.1 b hb; omega
        unfold setStatus
        rw [if_neg this]
        exact h1 b (List.mem_cons_of_mem i hb)
      have := ih { s with
          queue := rest,
          status := setStatus s.status i .started,
          activeCount := s.activeCount + 1,
          startedLog := s.startedLog ++ [i] } j h1' hpair.2
        (by show setStatus s.status i .started j ≠ .pending
            unfold setStatus; rw [if_neg hji]; exact hj)
      rw [this]
      show setStatus s.status i .started j = s.status j
      unfold setStatus; rw [if_neg hji]
    · rw [if_neg hc]

/-- The `_drain` loop re-establishes the queue invariant from its entry
conditions, without changing `nextId` or the concurrency cap. -/
theorem drainLoop_inv :
    ∀ (q : List Nat) (s : TQState),
      (∀ i ∈ q, s.status i = .pending) →
      (∀ i ∈ q, i < s.nextId) →
      q.Pairwise (· < ·) →
      (∀ a ∈ s.startedLog, ∀ b ∈ q, a < b) →
      s.startedLog.Pairwise (· < ·) →
      (∀ a ∈ s.startedLog, a < s.nextId) →
      (∀ i, s.nextId ≤ i → s.status i = .unused) →
      s.activeCount = countStarted s.status s.nextId →
      s.activeCount ≤ s.concurrency →
      TQInv (drainLoop q s) ∧ (drainLoop q s).nextId = s.nextId ∧
        (drainLoop q s).concurrency = s.concurrency := by
  intro q
  induction q with
  | nil =>
    intro s h1 h2 h3 h4 h5 h6 h7 h8 h9
    exact ⟨⟨h9, fun i hi => absurd hi (List.not_mem_nil i),
      fun i hi => absurd hi (List.not_mem_nil i), List.Pairwise.nil,
      fun a _ b hb => absurd hb (List.not_mem_nil b),
      h5, h6, h7, h8⟩, rfl, rfl⟩
  | cons i rest ih =>
    intro s h1 h2 h3 h4 h5 h6 h7 h8 h9
    have hip : s.status i = .pending := h1 i (List.mem_cons_self i rest)
    have hin : i < s.nextId := h2 i (List.mem_cons_self i rest)
    have hpair := List.pairwise_cons.mp h3
    simp only [drainLoop]
    by_cases hc : s.activeCount < s.concurrency
    · rw [if_pos hc, if_neg (by rw [hip]; intro hfalse; cases hfalse)]
      apply ih
      · intro b hb
        show setStatus s.status i .started b = .pending
        unfold setStatus
        rw [if_neg (by have := hpair.1 b hb; omega)]
        exact h1 b (List.mem_cons_of_mem i hb)
      · intro b hb; exact h2 b (List.mem_cons_of_mem i hb)
      · exact hpair.2
      · intro a ha b hb
        rcases List.mem_append.mp ha with ha | ha
        · exact h4 a ha b (List.mem_cons_of_mem i hb)
        · rw [List.mem_singleton.mp ha]
          exact hpair.1 b hb
      · refine List.pairwise_append.mpr ⟨h5, List.pairwise_singleton _ i, ?_⟩
        intro a ha b hb
        rw [List.mem_singleton.mp hb]
        exact h4 a ha i (List.mem_cons_self i rest)
      · intro a ha
        rcases List.mem_append.mp ha with ha | ha
        · exact h6 a ha
        · rw [List.mem_singleton.mp ha]; exact hin
      · intro j hj
        have hj' : s.nextId ≤ j := hj
        show setStatus s.status i .started j = .unused
        unfold setStatus
        rw [if_neg (by omega)]
        exact h7 j hj'
      · show s.activeCount + 1 = countStarted (setStatus s.status i .started) s.nextId
        rw [countStarted_set_started s.status i hip s.nextId hin]
        omega
      · show s.activeCount + 1 ≤ s.concurrency
        omega
    · rw [if_neg hc]
      exact ⟨⟨h9, h1, h2, h3, h4, h5, h6, h7, h8⟩, rfl, rfl⟩

/-- Every atomic queue event preserves the invariant. -/
theorem tqStep_inv (s s' : TQState) (hstep : TQStep s s') (hinv : TQInv s) :
    TQInv s' := by
  obtain ⟨hcap, hqp, hql, hqs, hlq, hls, hln, hfr, hct⟩ := hinv
  cases hstep with
  | enq c =>
    cases c with
    | true =>
      refine ⟨hcap, ?_, ?_, hqs, hlq, hls, ?_, ?_, ?_⟩
      · intro i hi
        show setStatus s.status s.nextId .rejectedAtEnqueue i = .pending
        unfold setStatus
        rw [if_neg (by have := hql i hi; omega)]
        exact hqp i hi
      · intro i hi
        show i < s.nextId + 1
        have := hql i hi; omega
      · intro a ha
        show a < s.nextId + 1
        have := hln a ha; omega
      · intro j hj
        have hj' : s.nextId + 1 ≤ j := hj
        show setStatus s.status s.nextId .rejectedAtEnqueue j = .unused
        unfold setStatus
        rw [if_neg (by omega)]
        exact hfr j (by omega)
      · show s.activeCount =
          countStarted (setStatus s.status s.nextId .rejectedAtEnqueue)
            (s.nextId + 1)
        simp only [countStarted]
        rw [countStarted_setStatus_ge s.status s.nextId _ s.nextId le_rfl,
          show setStatus s.status s.nextId .rejectedAtEnqueue s.nextId =
            .rejectedAtEnqueue from by simp [setStatus],
          if_neg (by intro hfalse; cases hfalse)]
        omega
    | false =>
      refine (drainLoop_inv (s.queue ++ [s.nextId])
        { s with nextId := s.nextId + 1,
                 status := setStatus s.status s.nextId .pending,
                 queue := s.queue ++ [s.nextId] }
        ?_ ?_ ?_ ?_ hls ?_ ?_ ?_ hcap).1
      · intro i hi
        show setStatus s.status s.nextId .pending i = .pending
        rcases List.mem_append.mp hi with hi | hi
        · unfold setStatus
          rw [if_neg (by have := hql i hi; omega)]
          exact hqp i hi
        · rw [List.mem_singleton.mp hi]
          simp [setStatus]
      · intro i hi
        show i < s.nextId + 1
        rcases List.mem_append.mp hi with hi | hi
        · have := hql i hi; omega
        · rw [List.mem_singleton.mp hi]; omega
      · refine List.pairwise_append.mpr
          ⟨hqs, List.pairwise_singleton _ _, ?_⟩
        intro a ha b hb
        rw [List.mem_singleton.mp hb]
        exact hql a ha
      · intro a ha b hb
        rcases List.mem_append.mp hb with hb | hb
        · exact hlq a ha b hb
        · rw [List.mem_singleton.mp hb]
          exact hln a ha
      · intro a ha
        show a < s.nextId + 1
        have := hln a ha; omega
      · intro j hj
        have hj' : s.nextId + 1 ≤ j := hj
        show setStatus s.status s.nextId .pending j = .unused
        unfold setStatus
        rw [if_neg (by omega)]
        exact hfr j (by omega)
      · show s.activeCount =
          countStarted (setStatus s.status s.nextId .pending) (s.nextId + 1)
        simp only [countStarted]
        rw [countStarted_setStatus_ge s.status s.nextId _ s.nextId le_rfl,
          show setStatus s.status s.nextId .pending s.nextId = .pending from
            by simp [setStatus],
          if_neg (by intro hfalse; cases hfalse)]
        omega
  | cancel i =>
    by_cases hp : s.status i = .pending
    · simp only [cancelItem, if_pos hp]
      refine ⟨hcap, ?_, ?_, ?_, ?_, hls, hln, ?_, ?_⟩
      · intro j hj
        have hj' : j ∈ s.queue := (List.mem_filter.mp hj).1
        have hji : j ≠ i := by simpa using (List.mem_filter.mp hj).2
        show setStatus s.status i .canceledBeforeStart j = .pending
        unfold setStatus
        rw [if_neg hji]
        exact hqp j hj'
      · intro j hj
        exact hql j (List.mem_filter.mp hj).1
      · exact List.Pairwise.sublist (List.filter_sublist _) hqs
      · intro a ha b hb
        exact hlq a ha b (List.mem_filter.mp hb).1
      · intro j hj
        have hj' : s.nextId ≤ j := hj
        have hji : j ≠ i := by
          intro he
          have hlt : i < s.nextId := by
            by_contra hge
            have := hfr i (by omega)
            rw [this] at hp; cases hp
          omega
        show setStatus s.status i .canceledBeforeStart j = .unused
        unfold setStatus
        rw [if_neg hji]
        exact hfr j hj'
      · show s.activeCount =
          countStarted (setStatus s.status i .canceledBeforeStart) s.nextId
        rw [countStarted_set_preserve s.status i _
          (by rw [hp]; intro hfalse; cases hfalse)
          (by intro hfalse; cases hfalse)]
        exact hct
    · simp only [cancelItem, if_neg hp]
      exact ⟨hcap, hqp, hql, hqs, hlq, hls, hln, hfr, hct⟩
  | compl i o =>
    by_cases hp : s.status i = .started
    · simp only [complete, if_pos hp]
      have hin : i < s.nextId := by
        by_contra hge
        have := hfr i (by omega)
        rw [this] at hp; cases hp
      have hdec := countStarted_set_unstarted s.status i (.done o) hp
        (by intro hfalse; cases hfalse) s.nextId hin
      refine (drainLoop_inv s.queue
        { s with status := setStatus s.status i (.done o),
                 activeCount := s.activeCount - 1 }
        ?_ hql hqs hlq hls hln ?_ ?_ ?_).1
      · intro j hj
        have hji : j ≠ i := by
          intro he
          have := hqp j hj
          rw [he, hp] at this
          cases this
        show setStatus s.status i (.done o) j = .pending
        unfold setStatus
        rw [if_neg hji]
        exact hqp j hj
      · intro j hj
        have hj' : s.nextId ≤ j := hj
        have hji : j ≠ i := by omega
        show setStatus s.status i (.done o) j = .unused
        unfold setStatus
        rw [if_neg hji]
        exact hfr j hj'
      · show s.activeCount - 1 =
          countStarted (setStatus s.status i (.done o)) s.nextId
        omega
      · show s.activeCount - 1 ≤ s.concurrency
        omega
    · simp only [complete, if_neg hp]
      exact ⟨hcap, hqp, hql, hqs, hlq, hls, hln, hfr, hct⟩

/-- Every reachable queue state satisfies the invariant. -/
theorem tqReachable_inv (c : Nat) (s : TQState) (h : TQReachable c s) :
    TQInv s := by
  induction h with
  | refl =>
    exact ⟨Nat.zero_le _, fun i hi => absurd hi (List.not_mem_nil i),
      fun i hi => absurd hi (List.not_mem_nil i), List.Pairwise.nil,
      fun a ha => absurd ha (List.not_mem_nil a), List.Pairwise.nil,
      fun a ha => absurd ha (List.not_mem_nil a),
      fun i _ => rfl, rfl⟩
  | tail hab hbc ih => exact tqStep_inv _ _ hbc ih

/-- An item rejected at enqueue time keeps that status through any single
event. -/
theorem tqStep_preserves_rejected (s s' : TQState) (hstep : TQStep s s')
    (hinv : TQInv s) (j : Nat) (hj : s.status j = .rejectedAtEnqueue) :
    s'.status j = .rejectedAtEnqueue := by
  obtain ⟨hcap, hqp, hql, hqs, hlq, hls, hln, hfr, hct⟩ := hinv
  have hjn : j < s.nextId := by
    by_contra hge
    have := hfr j (by omega)
    rw [this] at hj; cases hj
  cases hstep with
  | enq c =>
    cases c with
    | true =>
      show setStatus s.status s.nextId .rejectedAtEnqueue j = .rejectedAtEnqueue
      unfold setStatus
      rw [if_neg (by omega)]
      exact hj
    | false =>
      have hne : setStatus s.status s.nextId .pending j = .rejectedAtEnqueue := by
        unfold setStatus; rw [if_neg (by omega)]; exact hj
      have hpend : ∀ b ∈ s.queue ++ [s.nextId],
          setStatus s.status s.nextId .pending b = .pending := by
        intro b hb
        rcases List.mem_append.mp hb with hb | hb
        · unfold setStatus
          rw [if_neg (by have := hql b hb; omega)]
          exact hqp b hb
        · rw [List.mem_singleton.mp hb]; simp [setStatus]
      have hpair : (s.queue ++ [s.nextId]).Pairwise (· < ·) := by
        refine List.pairwise_append.mpr
          ⟨hqs, List.pairwise_singleton _ _, ?_⟩
        intro a ha b hb
        rw [List.mem_singleton.mp hb]
        exact hql a ha
      have hpres := drainLoop_status_of_ne_pending (s.queue ++ [s.nextId])
        { s with nextId := s.nextId + 1,
                 status := setStatus s.status s.nextId .pending,
                 queue := s.queue ++ [s.nextId] } j hpend hpair
        (by intro hfalse
            have hfalse' : setStatus s.status s.nextId ItemStatus.pending j =
              ItemStatus.pending := hfalse
            rw [hfalse'] at hne
            cases hne)
      exact hpres.trans hne
  | cancel i =>
    by_cases hp : s.status i = .pending
    · simp only [cancelItem, if_pos hp]
      have hji : j ≠ i := by
        intro he
        rw [he, hp] at hj; cases hj
      show setStatus s.status i .canceledBeforeStart j = .rejectedAtEnqueue
      unfold setStatus
      rw [if_neg hji]
      exact hj
    · simp only [cancelItem, if_neg hp]; exact hj
  | compl i o =>
    by_cases hp : s.status i = .started
    · simp only [complete, if_pos hp]
      have hji : j ≠ i := by
        intro he
        rw [he, hp] at hj; cases hj
      have hne : setStatus s.status i (.done o) j = .rejectedAtEnqueue := by
        unfold setStatus; rw [if_neg hji]; exact hj
      have hpend : ∀ b ∈ s.queue, setStatus s.status i (.done o) b = .pending := by
        intro b hb
        have hbi : b ≠ i := by
          intro he
          have := hqp b hb
          rw [he, hp] at this; cases this
        unfold setStatus
        rw [if_neg hbi]
        exact hqp b hb
      have hpres := drainLoop_status_of_ne_pending s.queue
        { s with status := setStatus s.status i (.done o),
                 activeCount := s.activeCount - 1 } j hpend hqs
        (by intro hfalse
            have hfalse' : setStatus s.status i (ItemStatus.done o) j =
              ItemStatus.pending := hfalse
            rw [hfalse'] at hne
            cases hne)
      exact hpres.trans hne
    · simp only [complete, if_neg hp]; exact hj

/-- An item rejected at enqueue time keeps that status along any later
trace (and the invariant travels with it). -/
theorem tqTrace_preserves_rejected :
    ∀ (s₀ s' : TQState), Relation.ReflTransGen TQStep s₀ s' → TQInv s₀ →
      ∀ j, s₀.status j = .rejectedAtEnqueue →
      TQInv s' ∧ s'.status j = .rejectedAtEnqueue := by
  intro s₀ s' h
  induction h with
  | refl => intro hinv j hj; exact ⟨hinv, hj⟩
  | tail hab hbc ih =>
    intro hinv j hj
    obtain ⟨hinvb, hjb⟩ := ih hinv j hj
    exact ⟨tqStep_inv _ _ hbc hinvb,
      tqStep_preserves_rejected _ _ hbc hinvb j hjb⟩

/-- When capacity is available, `_drain` starts the (pending) queue head. -/
theorem drainLoop_starts_head (i : Nat) (rest : List Nat) (s : TQState)
    (hc : s.activeCount < s.concurrency)
    (h1 : ∀ j ∈ i :: rest, s.status j = .pending)
    (h2 : (i :: rest).Pairwise (· < ·)) :
    (drainLoop (i :: rest) s).status i = .started := by
  have hip : s.status i = .pending := h1 i (List.mem_cons_self i rest)
  have hpair := List.pairwise_cons.mp h2
  simp only [drainLoop]
  rw [if_pos hc, if_neg (by rw [hip]; intro hfalse; cases hfalse)]
  have h1' : ∀ b ∈ rest, setStatus s.status i .started b = .pending := by
    intro b hb
    unfold setStatus
    rw [if_neg (by have := hpair.1 b hb; omega)]
    exact h1 b (List.mem_cons_of_mem i hb)
  have hpres := drainLoop_status_of_ne_pending rest
    { s with queue := rest, status := setStatus s.status i .started,
             activeCount := s.activeCount + 1,
             startedLog := s.startedLog ++ [i] } i h1' hpair.2
    (by intro hfalse
        have hfalse' : setStatus s.status i ItemStatus.started i =
          ItemStatus.pending := hfalse
        simp [setStatus] at hfalse')
  rw [hpres]
  show setStatus s.status i .started i = .started
  simp [setStatus]

/-- C6: over every sequence of enqueues, cancellations and completions
from a fresh queue with a fixed concurrency cap: the number of running
tasks never exceeds the cap; the ids of started items form a strictly
increasing sequence in start order, so pending items begin execution in
FIFO enqueue order; and completion of any task (success or failure)
decrements the active count and — with no external call — immediately
starts the next pending item at the queue head. -/
theorem transferQueue_drain_invariants :
    ∀ (c : Nat) (s : TQState), TQReachable c s →
      s.activeCount ≤ s.concurrency ∧
      s.startedLog.Pairwise (· < ·) ∧
      (∀ i o h t, s.status i = .started → s.queue = h :: t →
        (complete s i o).status h = .started) := by
  intro c s hreach
  obtain ⟨hcap, hqp, hql, hqs, hlq, hls, hln, hfr, hct⟩ := tqReachable_inv c s hreach
  refine ⟨hcap, hls, ?_⟩
  intro i o h t hi hq
  have hin : i < s.nextId := by
    by_contra hge
    have := hfr i (by omega)
    rw [this] at hi; cases hi
  have hpos : 1 ≤ s.activeCount := by
    rw [hct]; exact countStarted_pos s.status i hi s.nextId hin
  simp only [complete, if_pos hi]
  unfold drain
  have hqeq : (TQState.queue { s with
      status := setStatus s.status i (.done o),
      activeCount := s.activeCount - 1 }) = h :: t := hq
  rw [hqeq]
  apply drainLoop_starts_head
  · show s.activeCount - 1 < s.concurrency
    omega
  · intro j hj
    have hj' : j ∈ s.queue := by rw [hq]; exact hj
    have hji : j ≠ i := by
      intro he
      have := hqp j hj'
      rw [he, hi] at this; cases this
    show setStatus s.status i (.done o) j = .pending
    unfold setStatus
    rw [if_neg hji]
    exact hqp j hj'
  · rw [← hq]; exact hqs

/-- Witness for C6: concurrency 1, two tasks enqueued; the second stays
pending while the first runs, and completing the first immediately starts
it. -/
theorem transferQueue_drain_invariants_witness :
    (tqEnqueue (tqEnqueue (TQState.init 1) false).1 false).1.activeCount ≤
      (tqEnqueue (tqEnqueue (TQState.init 1) false).1 false).1.concurrency ∧
    (complete (tqEnqueue (tqEnqueue (TQState.init 1) false).1 false).1 0
      .resolved).status 1 = .started := by
  have hreach : TQReachable 1
      (tqEnqueue (tqEnqueue (TQState.init 1) false).1 false).1 :=
    Relation.ReflTransGen.tail
      (Relation.ReflTransGen.tail Relation.ReflTransGen.refl
        (TQStep.enq _ false))
      (TQStep.enq _ false)
  have h := transferQueue_drain_invariants 1 _ hreach
  exact ⟨h.1, h.2.2 0 .resolved 1 [] (by decide) (by decide)⟩

/-- C5: (a) `enqueue` with an already-canceled token rejects immediately
with the cancellation error, leaves the queue (so `stats().queued`)
unchanged, and the task never runs — its status stays `rejectedAtEnqueue`
in every later reachable state; (b) a token canceling a still-pending item
marks it canceled (its future rejects with `OPERATION_CANCELED`), removes
it from the queue, and leaves the active count alone; (c) a token canceling
an already-started item changes nothing, and the item's future settles with
the task's own outcome on completion. -/
theorem transferQueue_cancellation :
    ∀ (c : Nat) (s : TQState), TQReachable c s →
      ((tqEnqueue s true).2 = .rejectedCanceled s.nextId ∧
       (tqEnqueue s true).1.queue = s.queue ∧
       (tqEnqueue s true).1.status s.nextId = .rejectedAtEnqueue ∧
       (∀ s', Relation.ReflTransGen TQStep (tqEnqueue s true).1 s' →
         s'.status s.nextId = .rejectedAtEnqueue)) ∧
      (∀ i, s.status i = .pending →
        (cancelItem s i).status i = .canceledBeforeStart ∧
        i ∉ (cancelItem s i).queue ∧
        (cancelItem s i).queue = s.queue.filter (fun j => j ≠ i) ∧
        (cancelItem s i).activeCount = s.activeCount) ∧
      (∀ i, s.status i = .started →
        cancelItem s i = s ∧
        ∀ o, (complete s i o).status i = .done o) := by
  intro c s hreach
  have hinv := tqReachable_inv c s hreach
  refine ⟨⟨rfl, rfl, by simp [tqEnqueue, setStatus], ?_⟩,
    fun i hp => ⟨?_, ?_, ?_, ?_⟩, fun i hi => ⟨?_, fun o => ?_⟩⟩
  · intro s' htr
    have hinv1 : TQInv (tqEnqueue s true).1 :=
      tqStep_inv _ _ (TQStep.enq s true) hinv
    exact (tqTrace_preserves_rejected _ _ htr hinv1 s.nextId
      (by simp [tqEnqueue, setStatus])).2
  · simp [cancelItem, hp, setStatus]
  · simp [cancelItem, hp, List.mem_filter]
  · simp [cancelItem, hp]
  · simp [cancelItem, hp]
  · rw [cancelItem, if_neg (by rw [hi]; intro hfalse; cases hfalse)]
  · obtain ⟨hcap, hqp, hql, hqs, hlq, hls, hln, hfr, hct⟩ := hinv
    simp only [complete, if_pos hi]
    have hdone : setStatus s.status i (.done o) i = .done o := by
      simp [setStatus]
    have hpend : ∀ b ∈ s.queue, setStatus s.status i (.done o) b = .pending := by
      intro b hb
      have hbi : b ≠ i := by
        intro he
        have := hqp b hb
        rw [he, hi] at this; cases this
      unfold setStatus
      rw [if_neg hbi]
      exact hqp b hb
    have hpres := drainLoop_status_of_ne_pending s.queue
      { s with status := setStatus s.status i (.done o),
               activeCount := s.activeCount - 1 } i hpend hqs
      (by intro hfalse
          have hfalse' : setStatus s.status i (ItemStatus.done o) i =
            ItemStatus.pending := hfalse
          rw [hfalse'] at hdone
          cases hdone)
    exact hpres.trans hdone

/-- Witness for C5: on the two-task queue, a third enqueue with a canceled
token rejects with id 2 and stays rejected; canceling pending item 1
removes it; canceling started item 0 is a no-op and its completion settles
with the task outcome. -/
theorem transferQueue_cancellation_witness :
    (tqEnqueue (tqEnqueue (tqEnqueue (TQState.init 1) false).1 false).1
      true).2 = .rejectedCanceled 2 ∧
    (cancelItem (tqEnqueue (tqEnqueue (TQState.init 1) false).1 false).1
      1).status 1 = .canceledBeforeStart ∧
    1 ∉ (cancelItem (tqEnqueue (tqEnqueue (TQState.init 1) false).1 false).1
      1).queue ∧
    cancelItem (tqEnqueue (tqEnqueue (TQState.init 1) false).1 false).1 0 =
      (tqEnqueue (tqEnqueue (TQState.init 1) false).1 false).1 ∧
    (complete (tqEnqueue (tqEnqueue (TQState.init 1) false).1 false).1 0
      .taskError).status 0 = .done .taskError := by
  have hreach : TQReachable 1
      (tqEnqueue (tqEnqueue (TQState.init 1) false).1 false).1 :=
    Relation.ReflTransGen.tail
      (Relation.ReflTransGen.tail Relation.ReflTransGen.refl
        (TQStep.enq _ false))
      (TQStep.enq _ false)
  have h := transferQueue_cancellation 1 _ hreach
  have hb := h.2.1 1 (by decide)
  have hc := h.2.2 0 (by decide)
  exact ⟨h.1.1, hb.1, hb.2.1, hc.1, hc.2 .taskError⟩

/-- `get?` after `set` at an in-range index. -/
theorem get?_set_self {α : Type} (l : List α) (i : Nat) (a : α)
    (h : l.get? i ≠ none) : (l.set i a).get? i = some a := by
  induction l generalizing i with
  | nil => cases i <;> simp [List.get?] at h
  | cons hd tl ih =>
    cases i with
    | zero => rfl
    | succ n =>
      simpa [List.set, List.get?] using ih n (by simpa [List.get?] using h)

/-- C1 counterexample: two concurrent `getConnection` callers for one key;
the shared connect attempt fails; the caller that awaited the shared
promise falls through and starts a second attempt — so the trace (in the
actual event-loop resumption order: creator first, then the waiter) is
reachable, has exactly two callers, and performs two transport connect
invocations, not one. -/
theorem getConnection_two_connects_after_failure :
    CMReachable (applyEv (.resume 1) (applyEv (.resume 0)
      (applyEv (.settleFail 0) (applyEv .arrive (applyEv .arrive cmInit))))) ∧
    (applyEv (.resume 1) (applyEv (.resume 0) (applyEv (.settleFail 0)
      (applyEv .arrive (applyEv .arrive cmInit))))).connectCount = 2 ∧
    (applyEv .arrive (applyEv .arrive cmInit)).callers.length = 2 := by
  constructor
  · exact Relation.ReflTransGen.tail (Relation.ReflTransGen.tail
      (Relation.ReflTransGen.tail (Relation.ReflTransGen.tail
        (Relation.ReflTransGen.single ⟨.arrive, rfl⟩) ⟨.arrive, rfl⟩)
        ⟨.settleFail 0, rfl⟩) ⟨.resume 0, rfl⟩) ⟨.resume 1, rfl⟩
  · exact ⟨by decide, by decide⟩

/-- C10: a caller awaiting a shared in-flight connect promise that rejects
does not propagate the shared failure: its `catch` deletes the in-flight
entry, and (finding no pooled connection) it proceeds to start a fresh
connect attempt for the same key — a second transport connect
invocation. -/
theorem getConnection_retry_after_shared_failure :
    ∀ (s : CMState) (i p : Nat),
      s.callers.get? i = some (.waitShared p) →
      s.proms p = some .rejectedP →
      s.pooled = none →
      (resumeStep s i).callers.get? i = some (.waitOwn s.nextProm) ∧
      (resumeStep s i).connectCount = s.connectCount + 1 ∧
      (resumeStep s i).connecting = some s.nextProm ∧
      (resumeStep s i).proms s.nextProm = some .pending := by
  intro s i p hc hp hpool
  simp only [resumeStep, hc, hp, hpool]
  refine ⟨?_, ?_, ?_, ?_⟩
  · exact get?_set_self s.callers i _ (by rw [hc]; intro hfalse; cases hfalse)
  · trivial
  · trivial
  · simp [setProm]

/-- Witness for C10: after two arrivals and a failed first attempt, the
waiting caller (index 1) retries and starts attempt 1. -/
theorem getConnection_retry_after_shared_failure_witness :
    (resumeStep (applyEv (.settleFail 0) (applyEv .arrive
      (applyEv .arrive cmInit))) 1).connectCount =
      (applyEv (.settleFail 0) (applyEv .arrive
        (applyEv .arrive cmInit))).connectCount + 1 ∧
    (resumeStep (applyEv (.settleFail 0) (applyEv .arrive
      (applyEv .arrive cmInit))) 1).callers.get? 1 = some (.waitOwn 1) := by
  have h := getConnection_retry_after_shared_failure
    (applyEv (.settleFail 0) (applyEv .arrive (applyEv .arrive cmInit))) 1 0
    (by decide) (by decide) (by decide)
  exact ⟨h.2.1, h.1⟩

/-- Every non-failure event preserves the invariant of the per-key
connection model. -/
theorem cmStepOk_inv (s s' : CMState) (h : CMStepOk s s') (hinv : CMInv s) :
    CMInv s' := by
  obtain ⟨e, hnf, rfl⟩ := h
  obtain ⟨hnr, hle, hnp, hz, hop, hfr, hpc, hrp, hc0, hp0, hcw⟩ := hinv
  cases e with
  | settleFail p => exact absurd rfl (hnf p)
  | arrive =>
    cases hconn : s.connecting with
    | some p =>
      simp only [applyEv, arriveStep, hconn]
      refine ⟨hnr, hle, hnp, ?_, hop, hfr, ?_, fun hp => hrp hp, ?_,
        fun q hq => hp0 q hq, ?_⟩
      · intro h0
        have := (hz h0).1
        rw [hconn] at this
        cases this
      · intro hp
        have h1 := hpc hp
        rw [hconn] at h1
        exact h1
      · intro q hq
        have hq0 : some p = some q := hq
        injection hq0 with hq1
        rw [← hq1]
        exact hc0 p hconn
      · intro c hc q hw
        rcases List.mem_append.mp hc with hc | hc
        · exact hcw c hc q hw
        · rw [List.mem_singleton.mp hc] at hw
          simp only [waitsOn, Option.some.injEq] at hw
          rw [← hw]
          exact hc0 p hconn
    | none =>
      cases hpool : s.pooled with
      | some c0 =>
        simp only [applyEv, arriveStep, hconn, hpool]
        refine ⟨hnr, hle, hnp, ?_, hop, hfr, ?_, ?_, ?_, ?_, ?_⟩
        · intro h0
          have := (hz h0).2.1
          rw [hpool] at this
          cases this
        · intro hp
          have h1 := (hpc hp).1
          rw [hconn] at h1
          cases h1
        · intro hp
          have h1 := hrp hp
          rw [hpool] at h1
          exact h1
        · intro q hq
          have hq' : (none : Option Nat) = some q := hq
          cases hq'
        · intro q hq
          have hq' : some c0 = some q := hq
          injection hq' with h1
          rw [← h1]
          exact hp0 c0 hpool
        · intro c hc q hw
          rcases List.mem_append.mp hc with hc | hc
          · exact hcw c hc q hw
          · rw [List.mem_singleton.mp hc] at hw
            cases hw
      | none =>
        have h0 : s.connectCount = 0 := by
          rcases Nat.lt_or_ge s.connectCount 1 with h1 | h1
          · omega
          · have h1' : s.connectCount = 1 := by omega
            have hne := hop h1'
            cases hv : s.proms 0 with
            | none => exact absurd hv hne
            | some ps =>
              cases ps with
              | pending =>
                have := (hpc hv).1
                rw [hconn] at this
                cases this
              | resolvedP =>
                have := hrp hv
                rw [hpool] at this
                cases this
              | rejectedP => exact absurd hv (hnr 0)
        have hn0 : s.nextProm = 0 := by omega
        have hce : s.callers = [] := (hz h0).2.2
        simp only [applyEv, arriveStep, hconn, hpool]
        refine ⟨?_, ?_, ?_, ?_, ?_, ?_, ?_, ?_, ?_, ?_, ?_⟩
        · intro q
          show setProm s.proms s.nextProm (some .pending) q ≠ some .rejectedP
          unfold setProm
          by_cases hq : q = s.nextProm
          · rw [if_pos hq]
            intro hfalse
            injection hfalse with hfalse'
            cases hfalse'
          · rw [if_neg hq]
            exact hnr q
        · show s.connectCount + 1 ≤ 1
          omega
        · show s.nextProm + 1 = s.connectCount + 1
          omega
        · intro hh
          have hh' : s.connectCount + 1 = 0 := hh
          exact (Nat.succ_ne_zero _ hh').elim
        · intro _
          show setProm s.proms s.nextProm (some .pending) 0 ≠ none
          unfold setProm
          rw [if_pos (by omega)]
          intro hfalse
          cases hfalse
        · intro q hq
          have hq' : s.nextProm + 1 ≤ q := hq
          show setProm s.proms s.nextProm (some .pending) q = none
          unfold setProm
          rw [if_neg (by omega)]
          exact hfr q (by omega)
        · intro _
          constructor
          · show some s.nextProm = some 0
            rw [hn0]
          · rfl
        · intro hres
          have hres' : setProm s.proms s.nextProm (some .pending) 0 =
              some .resolvedP := hres
          have hpend : setProm s.proms s.nextProm (some .pending) 0 =
              some .pending := by
            unfold setProm
            rw [if_pos (by omega)]
          rw [hpend] at hres'
          injection hres' with hres''
          cases hres''
        · intro q hq
          have hq0 : some s.nextProm = some q := hq
          injection hq0 with hq'
          constructor
          · omega
          · show setProm s.proms s.nextProm (some .pending) 0 ≠ none
            unfold setProm
            rw [if_pos (by omega)]
            intro hfalse
            cases hfalse
        · intro q hq
          cases hq
        · intro c hc q hw
          rw [hce] at hc
          rw [List.nil_append] at hc
          rw [List.mem_singleton.mp hc] at hw
          simp only [waitsOn, Option.some.injEq] at hw
          constructor
          · omega
          · show setProm s.proms s.nextProm (some .pending) 0 ≠ none
            unfold setProm
            rw [if_pos (by omega)]
            intro hfalse
            cases hfalse
  | settleOk p =>
    by_cases hp : s.proms p = some .pending
    · have hplt : p < s.nextProm := by
        by_contra hge
        have := hfr p (by omega)
        rw [this] at hp
        cases hp
      have hp0' : p = 0 := by omega
      subst hp0'
      simp only [applyEv, settleOkStep, if_pos hp]
      have hres : setProm s.proms 0 (some .resolvedP) 0 = some .resolvedP := by
        unfold setProm
        rw [if_pos rfl]
      refine ⟨?_, hle, hnp, ?_, ?_, ?_, ?_, ?_, ?_, ?_, ?_⟩
      · intro q
        show setProm s.proms 0 (some .resolvedP) q ≠ some .rejectedP
        unfold setProm
        by_cases hq : q = 0
        · rw [if_pos hq]
          intro hfalse
          injection hfalse with hfalse'
          cases hfalse'
        · rw [if_neg hq]
          exact hnr q
      · intro h0
        have h0' : s.connectCount = 0 := h0
        exact (by omega : False).elim
      · intro _
        show setProm s.proms 0 (some .resolvedP) 0 ≠ none
        rw [hres]
        intro hfalse
        cases hfalse
      · intro q hq
        have hq' : s.nextProm ≤ q := hq
        show setProm s.proms 0 (some .resolvedP) q = none
        unfold setProm
        rw [if_neg (by omega)]
        exact hfr q hq'
      · intro hpend
        have hpend0 : setProm s.proms 0 (some PromState.resolvedP) 0 =
            some PromState.pending := hpend
        rw [hres] at hpend0
        injection hpend0 with hpend'
        cases hpend'
      · intro _
        rfl
      · intro q hq
        obtain ⟨rfl, -⟩ := hc0 q hq
        refine ⟨rfl, ?_⟩
        show setProm s.proms 0 (some .resolvedP) 0 ≠ none
        rw [hres]
        intro hfalse
        cases hfalse
      · intro q hq
        have hq0 : some 0 = some q := hq
        injection hq0 with hq'
        exact ⟨hq'.symm, hres⟩
      · intro c hc q hw
        obtain ⟨hq0, -⟩ := hcw c hc q hw
        refine ⟨hq0, ?_⟩
        show setProm s.proms 0 (some .resolvedP) 0 ≠ none
        rw [hres]
        intro hfalse
        cases hfalse
    · simp only [applyEv, settleOkStep, if_neg hp]
      exact ⟨hnr, hle, hnp, hz, hop, hfr, hpc, hrp, hc0, hp0, hcw⟩
  | resume i =>
    cases hgi : s.callers.get? i with
    | none =>
      simp only [applyEv, resumeStep, hgi]
      exact ⟨hnr, hle, hnp, hz, hop, hfr, hpc, hrp, hc0, hp0, hcw⟩
    | some c =>
      have hmem : c ∈ s.callers := List.get?_mem hgi
      have hgne : s.callers ≠ [] := by
        intro hnil
        rw [hnil] at hgi
        cases i <;> cases hgi
      cases c with
      | gotPooled =>
        simp only [applyEv, resumeStep, hgi]
        exact ⟨hnr, hle, hnp, hz, hop, hfr, hpc, hrp, hc0, hp0, hcw⟩
      | gotShared p =>
        simp only [applyEv, resumeStep, hgi]
        exact ⟨hnr, hle, hnp, hz, hop, hfr, hpc, hrp, hc0, hp0, hcw⟩
      | gotNew p =>
        simp only [applyEv, resumeStep, hgi]
        exact ⟨hnr, hle, hnp, hz, hop, hfr, hpc, hrp, hc0, hp0, hcw⟩
      | failedConn p =>
        simp only [applyEv, resumeStep, hgi]
        exact ⟨hnr, hle, hnp, hz, hop, hfr, hpc, hrp, hc0, hp0, hcw⟩
      | waitShared p =>
        obtain ⟨rfl, hprom⟩ := hcw _ hmem p rfl
        cases hv : s.proms 0 with
        | none => exact absurd hv hprom
        | some ps =>
          cases ps with
          | rejectedP => exact absurd hv (hnr 0)
          | pending =>
            simp only [applyEv, resumeStep, hgi, hv]
            exact ⟨hnr, hle, hnp, hz, hop, hfr, hpc, hrp, hc0, hp0, hcw⟩
          | resolvedP =>
            simp only [applyEv, resumeStep, hgi, hv]
            refine ⟨hnr, hle, hnp, ?_, hop, hfr, hpc, hrp, hc0, hp0, ?_⟩
            · intro h0
              exact absurd (hz h0).2.2 hgne
            · intro c' hc' q hw
              rcases List.mem_or_eq_of_mem_set hc' with hc' | hc'
              · exact hcw c' hc' q hw
              · rw [hc'] at hw
                cases hw
      | waitOwn p =>
        obtain ⟨rfl, hprom⟩ := hcw _ hmem p rfl
        cases hv : s.proms 0 with
        | none => exact absurd hv hprom
        | some ps =>
          cases ps with
          | rejectedP => exact absurd hv (hnr 0)
          | pending =>
            simp only [applyEv, resumeStep, hgi, hv]
            exact ⟨hnr, hle, hnp, hz, hop, hfr, hpc, hrp, hc0, hp0, hcw⟩
          | resolvedP =>
            simp only [applyEv, resumeStep, hgi, hv]
            refine ⟨hnr, hle, hnp, ?_, hop, hfr, ?_, hrp, ?_, hp0, ?_⟩
            · intro h0
              exact absurd (hz h0).2.2 hgne
            · intro hpend
              have hpend0 : s.proms 0 = some PromState.pending := hpend
              rw [hv] at hpend0
              injection hpend0 with hpend'
              cases hpend'
            · intro q hq
              have hq' : (none : Option Nat) = some q := hq
              cases hq'
            · intro c' hc' q hw
              rcases List.mem_or_eq_of_mem_set hc' with hc' | hc'
              · exact hcw c' hc' q hw
              · rw [hc'] at hw
                cases hw

/-- Every state reachable without connect failures satisfies the
invariant. -/
theorem cmReachableOk_inv (s : CMState) (h : CMReachableOk s) : CMInv s := by
  induction h with
  | refl =>
    refine ⟨?_, by decide, rfl, fun _ => ⟨rfl, rfl, rfl⟩, ?_, fun p _ => rfl,
      ?_, ?_, ?_, ?_, ?_⟩
    · intro p hfalse
      cases hfalse
    · intro h1
      cases h1
    · intro hpend
      cases hpend
    · intro hres
      cases hres
    · intro q hq
      cases hq
    · intro q hq
      cases hq
    · intro c hc q _
      cases hc
  | tail hab hbc ih => exact cmStepOk_inv _ _ hbc ih

/-- C1 amended: per connection key, as long as no connect attempt fails:
all concurrent `getConnection` callers await the same single in-flight
connect promise; exactly one underlying transport connect invocation occurs
once any caller has arrived; at every reachable state at most one connect
attempt is pending, and the in-flight map slot and the pool slot each hold
at most one entry per key.  (After a failed attempt, an awaiting caller
starts a fresh attempt — see the counterexample — so the one-invocation
bound holds only on failure-free traces.) -/
theorem getConnection_dedup_no_failure :
    ∀ s, CMReachableOk s →
      (s.callers ≠ [] → s.connectCount = 1) ∧
      (∀ p q, s.proms p = some .pending → s.proms q = some .pending → p = q) ∧
      (∀ c, c ∈ s.callers → ∀ c', c' ∈ s.callers → ∀ p p',
        waitsOn c = some p → waitsOn c' = some p' → p = p') ∧
      (∀ p q, s.connecting = some p → s.connecting = some q → p = q) ∧
      (∀ p q, s.pooled = some p → s.pooled = some q → p = q) := by
  intro s h
  obtain ⟨hnr, hle, hnp, hz, hop, hfr, hpc, hrp, hc0, hp0, hcw⟩ :=
    cmReachableOk_inv s h
  refine ⟨?_, ?_, ?_, ?_, ?_⟩
  · intro hne
    rcases Nat.lt_or_ge s.connectCount 1 with h1 | h1
    · have h0 : s.connectCount = 0 := by omega
      exact absurd (hz h0).2.2 hne
    · omega
  · intro p q hp hq
    have hplt : p < s.nextProm := by
      by_contra hge
      have := hfr p (by omega)
      rw [this] at hp
      cases hp
    have hqlt : q < s.nextProm := by
      by_contra hge
      have := hfr q (by omega)
      rw [this] at hq
      cases hq
    omega
  · intro c hc c' hc' p p' hw hw'
    have h1 := (hcw c hc p hw).1
    have h2 := (hcw c' hc' p' hw').1
    omega
  · intro p q h1 h2
    have := h1.symm.trans h2
    injection this
  · intro p q h1 h2
    have := h1.symm.trans h2
    injection this

/-- Witness for C1 (amended): after two failure-free concurrent arrivals,
there are callers and exactly one connect invocation. -/
theorem getConnection_dedup_no_failure_witness :
    (applyEv .arrive (applyEv .arrive cmInit)).callers ≠ [] ∧
    (applyEv .arrive (applyEv .arrive cmInit)).connectCount = 1 := by
  have hreach : CMReachableOk (applyEv .arrive (applyEv .arrive cmInit)) :=
    Relation.ReflTransGen.tail
      (Relation.ReflTransGen.single
        ⟨.arrive, ⟨fun p hfalse => (nomatch hfalse), rfl⟩⟩)
      ⟨.arrive, ⟨fun p hfalse => (nomatch hfalse), rfl⟩⟩
  exact ⟨by decide,
    (getConnection_dedup_no_failure _ hreach).1 (by decide)⟩

end MultiSftpSync
